import Mathlib

/-!
Verification of the message-classification logic (`src/cli/db_reader.py`) and
the markdown renderer (`src/cli/markdown.py`) of the rikkaparser repository.

JSON records are embedded as structured values carrying exactly the fields the
Python code reads.  A scalar field value is either a string or an opaque
non-string JSON value of which the code can only observe Python truthiness.
-/

/-- A scalar JSON value as observed by the Python code: either a string, or
some other JSON value of which only Python truthiness is observable. -/
inductive PValue where
  | vstr (s : String)
  | vother (truthy : Bool)
  deriving DecidableEq, Repr

/-- Python truthiness of a scalar value (`""` and falsy non-strings are falsy). -/
def PValue.truthy : PValue → Bool
  | .vstr s => !s.isEmpty
  | .vother b => b

/-- `record.get(key, "")` for an optional scalar field. -/
def getPV (o : Option PValue) : PValue := o.getD (PValue.vstr "")

mutual
/-- A raw message-part record: the fields read by `parse_message_part`
(`src/cli/db_reader.py`).  `output` models `part.get("output", [])`, an absent
field being indistinguishable from an empty array there. -/
inductive RawPart where
  | mk (type? text? reasoning? url? fileName? mime? createdAt? finishedAt?
        toolCallId? toolName? input? : Option PValue) (output : RawParts)

/-- A list of raw part records (a separate inductive so that the classifier is
plain mutual structural recursion). -/
inductive RawParts where
  | nil
  | cons (p : RawPart) (ps : RawParts)
end

/-- Convenience bundle of the scalar fields of a raw part record; every field
defaults to absent. -/
structure PartFields where
  type? : Option PValue := none
  text? : Option PValue := none
  reasoning? : Option PValue := none
  url? : Option PValue := none
  fileName? : Option PValue := none
  mime? : Option PValue := none
  createdAt? : Option PValue := none
  finishedAt? : Option PValue := none
  toolCallId? : Option PValue := none
  toolName? : Option PValue := none
  input? : Option PValue := none

/-- Build a raw part record from its scalar fields and its raw output list. -/
def RawPart.ofFields (f : PartFields) (out : RawParts) : RawPart :=
  .mk f.type? f.text? f.reasoning? f.url? f.fileName? f.mime? f.createdAt?
    f.finishedAt? f.toolCallId? f.toolName? f.input? out

def RawPart.type? : RawPart → Option PValue
  | .mk t _ _ _ _ _ _ _ _ _ _ _ => t

def RawPart.text? : RawPart → Option PValue
  | .mk _ v _ _ _ _ _ _ _ _ _ _ => v

def RawPart.reasoning? : RawPart → Option PValue
  | .mk _ _ v _ _ _ _ _ _ _ _ _ => v

def RawPart.url? : RawPart → Option PValue
  | .mk _ _ _ v _ _ _ _ _ _ _ _ => v

def RawPart.fileName? : RawPart → Option PValue
  | .mk _ _ _ _ v _ _ _ _ _ _ _ => v

def RawPart.mime? : RawPart → Option PValue
  | .mk _ _ _ _ _ v _ _ _ _ _ _ => v

def RawPart.createdAt? : RawPart → Option PValue
  | .mk _ _ _ _ _ _ v _ _ _ _ _ => v

def RawPart.finishedAt? : RawPart → Option PValue
  | .mk _ _ _ _ _ _ _ v _ _ _ _ => v

def RawPart.toolCallId? : RawPart → Option PValue
  | .mk _ _ _ _ _ _ _ _ v _ _ _ => v

def RawPart.toolName? : RawPart → Option PValue
  | .mk _ _ _ _ _ _ _ _ _ v _ _ => v

def RawPart.input? : RawPart → Option PValue
  | .mk _ _ _ _ _ _ _ _ _ _ v _ => v

def RawPart.output : RawPart → RawParts
  | .mk _ _ _ _ _ _ _ _ _ _ _ o => o

/-- The raw output list as a plain Lean list. -/
def RawParts.toList : RawParts → List RawPart
  | .nil => []
  | .cons p ps => p :: ps.toList

mutual
/-- The typed `MessagePart` dataclass of `src/cli/models.py`.  Field order:
type, text, url, file_name, mime, created_at, finished_at, tool_call_id,
tool_name, input, output. -/
inductive MessagePart where
  | mk (type : String) (text url file_name mime created_at : PValue)
       (finished_at : Option PValue) (tool_call_id tool_name input : PValue)
       (output : MessageParts)

inductive MessageParts where
  | nil
  | cons (p : MessagePart) (ps : MessageParts)
end

/-- The dataclass default `""` for string-typed fields. -/
def emptyPV : PValue := PValue.vstr ""

def MessagePart.type : MessagePart → String
  | .mk t _ _ _ _ _ _ _ _ _ _ => t

def MessagePart.text : MessagePart → PValue
  | .mk _ v _ _ _ _ _ _ _ _ _ => v

def MessagePart.url : MessagePart → PValue
  | .mk _ _ v _ _ _ _ _ _ _ _ => v

def MessagePart.file_name : MessagePart → PValue
  | .mk _ _ _ v _ _ _ _ _ _ _ => v

def MessagePart.mime : MessagePart → PValue
  | .mk _ _ _ _ v _ _ _ _ _ _ => v

def MessagePart.output : MessagePart → MessageParts
  | .mk _ _ _ _ _ _ _ _ _ _ o => o

def MessageParts.toList : MessageParts → List MessagePart
  | .nil => []
  | .cons p ps => p :: ps.toList

/-- `MessagePart(type="text", text=t)`. -/
def mkTextPart (t : PValue) : MessagePart :=
  .mk "text" t emptyPV emptyPV emptyPV emptyPV none emptyPV emptyPV emptyPV .nil

/-- `MessagePart(type="reasoning", text=..., created_at=..., finished_at=...)`. -/
def mkReasoningPart (t ca : PValue) (fi : Option PValue) : MessagePart :=
  .mk "reasoning" t emptyPV emptyPV emptyPV ca fi emptyPV emptyPV emptyPV .nil

/-- `MessagePart(type="image", url=u)`. -/
def mkImagePart (u : PValue) : MessagePart :=
  .mk "image" emptyPV u emptyPV emptyPV emptyPV none emptyPV emptyPV emptyPV .nil

/-- `MessagePart(type="document", url=..., file_name=..., mime=...)`. -/
def mkDocumentPart (u fn mi : PValue) : MessagePart :=
  .mk "document" emptyPV u fn mi emptyPV none emptyPV emptyPV emptyPV .nil

/-- `MessagePart(type="video", url=u)`. -/
def mkVideoPart (u : PValue) : MessagePart :=
  .mk "video" emptyPV u emptyPV emptyPV emptyPV none emptyPV emptyPV emptyPV .nil

/-- `MessagePart(type="audio", url=u)`. -/
def mkAudioPart (u : PValue) : MessagePart :=
  .mk "audio" emptyPV u emptyPV emptyPV emptyPV none emptyPV emptyPV emptyPV .nil

/-- `MessagePart(type="tool", tool_call_id=..., tool_name=..., input=..., output=...)`. -/
def mkToolPart (tc tn inp : PValue) (out : MessageParts) : MessagePart :=
  .mk "tool" emptyPV emptyPV emptyPV emptyPV emptyPV none tc tn inp out

/-- The explicit type tags recognized by `parse_message_part`. -/
def tagTextT : String := "me.rerere.ai.ui.UIMessagePart.Text"
def tagReasoningT : String := "me.rerere.ai.ui.UIMessagePart.Reasoning"
def tagImageT : String := "me.rerere.ai.ui.UIMessagePart.Image"
def tagDocumentT : String := "me.rerere.ai.ui.UIMessagePart.Document"
def tagVideoT : String := "me.rerere.ai.ui.UIMessagePart.Video"
def tagAudioT : String := "me.rerere.ai.ui.UIMessagePart.Audio"
def tagToolT : String := "me.rerere.ai.ui.UIMessagePart.Tool"

mutual
/-- `parse_message_part` (`src/cli/db_reader.py`, lines 180-241), translated
branch by branch in source order. -/
def parse_message_part : RawPart → Option MessagePart
  | .mk ty tx rs url fn mi ca fi tc tn inp out =>
    let pt := getPV ty
    if pt = .vstr tagTextT ∨
        (tx.isSome ∧ rs.isNone ∧ tc.isNone ∧ tn.isNone ∧ url.isNone ∧ fn.isNone) then
      let text := getPV tx
      if text.truthy = false ∧ pt.truthy = false then none
      else some (mkTextPart text)
    else if pt = .vstr tagReasoningT ∨ rs.isSome then
      some (mkReasoningPart (getPV rs) (getPV ca) fi)
    else if pt = .vstr tagImageT ∨
        (url.isSome ∧ fn.isNone ∧ tc.isNone ∧ rs.isNone) then
      if tc.isSome ∨ tn.isSome ∨ rs.isSome then none
      else some (mkImagePart (getPV url))
    else if pt = .vstr tagDocumentT ∨ fn.isSome then
      some (mkDocumentPart (getPV url) (getPV fn) (getPV mi))
    else if pt = .vstr tagVideoT then
      some (mkVideoPart (getPV url))
    else if pt = .vstr tagAudioT then
      some (mkAudioPart (getPV url))
    else if pt = .vstr tagToolT ∨ tc.isSome then
      some (mkToolPart (getPV tc) (getPV tn) (getPV inp) (parse_message_parts out))
    else
      match tx with
      | some (.vstr s) => some (mkTextPart (.vstr s))
      | _ => none

/-- The `for op in part.get("output", [])` loop of the Tool branch: classify
each raw entry, dropping the ones that classify to `None`. -/
def parse_message_parts : RawParts → MessageParts
  | .nil => .nil
  | .cons p ps =>
    match parse_message_part p with
    | some q => .cons q (parse_message_parts ps)
    | none => parse_message_parts ps
end

/-- A raw annotation record as read by `parse_ui_message`. -/
structure RawAnn where
  type? : Option PValue := none
  title? : Option PValue := none
  url? : Option PValue := none

/-- A raw `usage` object.  The Python code reads both camelCase and snake_case
token-count keys; `extraKeys` records whether the dict has any further keys
(which only affects its Python truthiness). -/
structure RawUsage where
  promptTokensC? : Option Int := none
  promptTokensS? : Option Int := none
  completionTokensC? : Option Int := none
  completionTokensS? : Option Int := none
  totalTokensC? : Option Int := none
  totalTokensS? : Option Int := none
  extraKeys : Bool := false

/-- Python truthiness of a raw usage dict: non-empty. -/
def RawUsage.truthy (u : RawUsage) : Bool :=
  u.promptTokensC?.isSome || u.promptTokensS?.isSome ||
  u.completionTokensC?.isSome || u.completionTokensS?.isSome ||
  u.totalTokensC?.isSome || u.totalTokensS?.isSome || u.extraKeys

/-- A raw message-variant record (one element of a `message_node`'s `messages`
JSON array), with the fields `parse_ui_message` reads.  `extraKeys` records
whether the dict carries any other keys, which only affects truthiness. -/
structure RawMsg where
  role? : Option PValue := none
  parts? : Option RawParts := none
  annotations? : Option (List RawAnn) := none
  usage? : Option RawUsage := none
  createdAt? : Option PValue := none
  finishedAt? : Option PValue := none
  modelId? : Option PValue := none
  translation? : Option PValue := none
  extraKeys : Bool := false

/-- Python truthiness of a raw message dict: non-empty. -/
def RawMsg.truthy (m : RawMsg) : Bool :=
  m.role?.isSome || m.parts?.isSome || m.annotations?.isSome || m.usage?.isSome ||
  m.createdAt?.isSome || m.finishedAt?.isSome || m.modelId?.isSome ||
  m.translation?.isSome || m.extraKeys

/-- A retained `url_citation` annotation. -/
structure Annotation where
  type : String
  title : PValue
  url : PValue
  deriving DecidableEq

/-- The normalized usage triple built by `parse_ui_message`. -/
structure Usage where
  prompt_tokens : Int
  completion_tokens : Int
  total_tokens : Int
  deriving DecidableEq

/-- The `Message` dataclass of `src/cli/models.py`. -/
structure Message where
  role : PValue
  parts : List MessagePart := []
  annotations : List Annotation := []
  usage : Option Usage := none
  created_at : PValue := emptyPV
  finished_at : Option PValue := none
  model_id : Option PValue := none
  translation : Option PValue := none
  branch_count : Nat := 1
  branch_index : Int := 0

/-- `parse_ui_message` (`src/cli/db_reader.py`, lines 141-177). -/
def parse_ui_message (msg : RawMsg) : Message :=
  let parts := (parse_message_parts (msg.parts?.getD .nil)).toList
  let annotations := (msg.annotations?.getD []).filterMap fun ann =>
    if getPV ann.type? = .vstr "url_citation" then
      some ⟨"url_citation", getPV ann.title?, getPV ann.url?⟩
    else none
  let usage : Option Usage :=
    match msg.usage? with
    | none => none
    | some u =>
      if u.truthy then
        some ⟨u.promptTokensC?.getD (u.promptTokensS?.getD 0),
              u.completionTokensC?.getD (u.completionTokensS?.getD 0),
              u.totalTokensC?.getD (u.totalTokensS?.getD 0)⟩
      else none
  { role := msg.role?.getD (.vstr "unknown")
    parts := parts
    annotations := annotations
    usage := usage
    created_at := getPV msg.createdAt?
    finished_at := msg.finishedAt?
    model_id := msg.modelId?
    translation := msg.translation? }

/-- The per-node message assembly of `read_conversations`
(`src/cli/db_reader.py`, lines 100-109): pick the selected variant (falling
back to the first when the index is out of range), parse it if it is a
non-empty record, and attach the branch metadata. -/
def assemble (messages : List RawMsg) (select_index : Int) : Option Message :=
  match messages with
  | [] => none
  | m0 :: _ =>
    let selected :=
      if 0 ≤ select_index ∧ select_index < (messages.length : Int) then
        messages.getD select_index.toNat m0
      else m0
    if selected.truthy then
      some { parse_ui_message selected with
              branch_count := messages.length
              branch_index := select_index }
    else none

/-! ## The markdown renderer (`src/cli/markdown.py`)

Strings are processed as `List Char`.  Each `re.sub` call of `inline_format`
is modelled by a left-to-right scanner (`subGo`) driven by a matcher that
implements the pattern's leftmost-match semantics, including the lazy `(.+?)`
groups (earliest closing delimiter) and the look-around assertions of the
italic pattern.  `\x00` is written as an explicit escape. -/

/-- `str.strip()` on a character list: drop leading and trailing whitespace. -/
def trimChars (cs : List Char) : List Char :=
  ((cs.dropWhile Char.isWhitespace).reverse.dropWhile Char.isWhitespace).reverse

/-- `str.strip()` (structural, so that concrete renderings evaluate). -/
def pyStrip (s : String) : String := String.mk (trimChars s.data)

/-- `s.startswith(pre)`. -/
def strStarts (s pre : String) : Bool := pre.data.isPrefixOf s.data

/-- `c in s` for a single character. -/
def strContainsChar (s : String) (c : Char) : Bool := s.data.contains c

/-- `s[n:]` (drop the first `n` characters). -/
def strDropN (s : String) (n : Nat) : String := String.mk (s.data.drop n)

/-- `html.escape(c)` on one character (`&`, `<`, `>`, `"`, `'`). -/
def escCh (c : Char) : String :=
  if c = '&' then "&amp;"
  else if c = '<' then "&lt;"
  else if c = '>' then "&gt;"
  else if c = '"' then "&quot;"
  else if c = '\'' then "&#x27;"
  else String.singleton c

/-- `html.escape` (with quoting), applied character-wise; equivalent to the
sequential `str.replace` passes because no replacement text contains a
character that a later pass rewrites. -/
def escapeHtml (s : String) : String := String.join (s.data.map escCh)

/-- The decimal digit characters. -/
def digitChar : Nat → Char
  | 0 => '0'
  | 1 => '1'
  | 2 => '2'
  | 3 => '3'
  | 4 => '4'
  | 5 => '5'
  | 6 => '6'
  | 7 => '7'
  | 8 => '8'
  | _ => '9'

/-- Decimal representation of a natural number (`f'{i}'`), fuel-structural so
that it evaluates in the kernel; the fuel is always sufficient. -/
def natDecimalAux : Nat → Nat → List Char
  | 0, _ => []
  | fuel + 1, n =>
    if n < 10 then [digitChar n]
    else natDecimalAux fuel (n / 10) ++ [digitChar (n % 10)]

/-- Decimal representation of a natural number. -/
def natDecimal (n : Nat) : List Char := natDecimalAux (n + 1) n

/-- The placeholder `f'\x00C{i}\x00'` standing for extracted code span `i`. -/
def placeholderTok (i : Nat) : List Char :=
  '\x00' :: 'C' :: natDecimal i ++ ['\x00']

/-- One left-to-right pass of `re.sub(r'`([^`]+)`', _save_code, text)`:
collect the code-span contents in order and replace each with its placeholder.
`buf?` is `some buf` while scanning after an as-yet-unclosed backtick (`buf`
holds the reversed candidate span).  An unclosable backtick is emitted
literally, exactly as the regex engine leaves it. -/
def extractGo : List Char → Nat → Option (List Char) → List (List Char) × List Char
  | [], _, none => ([], [])
  | [], _, some buf => ([], '`' :: buf.reverse)
  | c :: cs, idx, none =>
    if c = '`' then extractGo cs idx (some [])
    else
      let pr := extractGo cs idx none
      (pr.1, c :: pr.2)
  | c :: cs, idx, some buf =>
    if c = '`' then
      if buf.isEmpty then
        let pr := extractGo cs idx (some [])
        (pr.1, '`' :: pr.2)
      else
        let pr := extractGo cs (idx + 1) none
        (buf.reverse :: pr.1, placeholderTok idx ++ pr.2)
    else extractGo cs idx (some (c :: buf))

/-- A substitution matcher: given the character preceding the current scan
position in the original text (for look-behind) and the remaining text,
return the replacement and the number of characters consumed (≥ 1). -/
def SubMatcher : Type := Option Char → List Char → Option (List Char × Nat)

/-- The scan loop of `re.sub`: try the matcher at each position from left to
right; on a match, emit the replacement and resume right after the consumed
text.  `fuel` only bounds the recursion and is always supplied ≥ length + 1. -/
def subGo (m : SubMatcher) : Nat → Option Char → List Char → List Char
  | 0, _, s => s
  | _ + 1, _, [] => []
  | fuel + 1, prev, c :: cs =>
    match m prev (c :: cs) with
    | some (repl, k) =>
      repl ++ subGo m fuel ((c :: cs).get? (k - 1)) ((c :: cs).drop k)
    | none => c :: subGo m fuel (some c) cs

/-- `re.sub(pattern, repl, s)` for one pattern. -/
def subAll (m : SubMatcher) (s : List Char) : List Char :=
  subGo m (s.length + 1) none s

/-- Find the earliest occurrence of `delim` in `s`, returning the characters
before it and the characters after it; fails at end of input or at a newline
(the lazy `(.+?)` group cannot cross `\n`). -/
def scanFor (delim : List Char) : List Char → Option (List Char × List Char)
  | [] => none
  | c :: cs =>
    if delim.isPrefixOf (c :: cs) then some ([], (c :: cs).drop delim.length)
    else if c = '\n' then none
    else (scanFor delim cs).map fun pr => (c :: pr.1, pr.2)

/-- Matcher for `!\[([^\]]*)\]\(([^)]+)\)` with the image replacement. -/
def imageMatcher : SubMatcher := fun _ s =>
  match s with
  | '!' :: '[' :: rest =>
    let alt := rest.takeWhile (fun c => c ≠ ']')
    (match rest.drop alt.length with
    | ']' :: '(' :: rest2 =>
      let url := rest2.takeWhile (fun c => c ≠ ')')
      if url.isEmpty then none
      else
        match rest2.drop url.length with
        | ')' :: _ =>
          some ("<img src=\"".data ++ url ++ "\" alt=\"".data ++ alt ++
                "\" style=\"max-width:360px;border-radius:6px\">".data,
                2 + alt.length + 2 + url.length + 1)
        | _ => none
    | _ => none)
  | _ => none

/-- Matcher for `\[([^\]]+)\]\(([^)]+)\)` with the link replacement. -/
def linkMatcher : SubMatcher := fun _ s =>
  match s with
  | '[' :: rest =>
    let tx := rest.takeWhile (fun c => c ≠ ']')
    if tx.isEmpty then none
    else
      (match rest.drop tx.length with
      | ']' :: '(' :: rest2 =>
        let url := rest2.takeWhile (fun c => c ≠ ')')
        if url.isEmpty then none
        else
          match rest2.drop url.length with
          | ')' :: _ =>
            some ("<a href=\"".data ++ url ++ "\" target=\"_blank\">".data ++ tx ++
                  "</a>".data,
                  1 + tx.length + 2 + url.length + 1)
          | _ => none
      | _ => none)
  | _ => none

/-- Matcher for `delim(.+?)delim` (used for `***`, `**`, `__`, `~~`), wrapping
the lazily-matched nonempty content in `openT`/`closeT`. -/
def pairMatcher (delim openT closeT : List Char) : SubMatcher := fun _ s =>
  if delim.isPrefixOf s then
    match s.drop delim.length with
    | [] => none
    | c0 :: rest0 =>
      if c0 = '\n' then none
      else
        match scanFor delim rest0 with
        | some (ct, _) =>
          let content := c0 :: ct
          some (openT ++ content ++ closeT,
                delim.length + content.length + delim.length)
        | none => none
  else none

/-- The lazy content scan of the italic pattern: find the earliest `*` that is
a valid closing delimiter, i.e. not preceded (`prevC`) or followed by `*`. -/
def italicGo (prevC : Char) : List Char → Option (List Char × List Char)
  | [] => none
  | c :: cs =>
    if c = '*' ∧ prevC ≠ '*' ∧ cs.head? ≠ some '*' then some ([], cs)
    else if c = '\n' then none
    else (italicGo c cs).map fun pr => (c :: pr.1, pr.2)

/-- Matcher for `(?<!\*)\*(?!\*)(.+?)(?<!\*)\*(?!\*)`. -/
def italicMatcher : SubMatcher := fun prev s =>
  match s with
  | '*' :: c0 :: rest0 =>
    if prev = some '*' then none
    else if c0 = '*' then none
    else if c0 = '\n' then none
    else
      match italicGo c0 rest0 with
      | some (ct, _) =>
        let content := c0 :: ct
        some ("<em>".data ++ content ++ "</em>".data, 1 + content.length + 1)
      | none => none
  | _ => none

/-- `str.replace(pat, repl)`: replace every (leftmost, non-overlapping)
occurrence; replacements are not rescanned.  `fuel` is supplied ≥ length + 1
and `pat` is never empty at call sites. -/
def replaceAll (pat repl : List Char) : Nat → List Char → List Char
  | 0, s => s
  | _ + 1, [] => []
  | fuel + 1, c :: cs =>
    if pat.isPrefixOf (c :: cs) then
      repl ++ replaceAll pat repl fuel ((c :: cs).drop pat.length)
    else c :: replaceAll pat repl fuel cs

/-- `text.replace(pat, repl)` with the fuel instantiated. -/
def pyReplace (pat repl t : List Char) : List Char :=
  replaceAll pat repl (t.length + 1) t

/-- The restore loop: `text.replace(f'\x00C{i}\x00', f'<code>{code}</code>')`
for each saved span, in index order. -/
def restoreSpans : Nat → List (List Char) → List Char → List Char
  | _, [], t => t
  | i, sp :: rest, t =>
    restoreSpans (i + 1) rest
      (pyReplace (placeholderTok i) ("<code>".data ++ sp ++ "</code>".data) t)

/-- `inline_format` (`src/cli/markdown.py`, lines 12-46): extract code spans,
run the image, link, triple-emphasis, bold (`**`, `__`), strikethrough and
italic substitutions in that order, then restore the code spans. -/
def inline_format (text : String) : String :=
  let pr := extractGo text.data 0 none
  let t := subAll imageMatcher pr.2
  let t := subAll linkMatcher t
  let t := subAll (pairMatcher "***".data "<strong><em>".data "</em></strong>".data) t
  let t := subAll (pairMatcher "**".data "<strong>".data "</strong>".data) t
  let t := subAll (pairMatcher "__".data "<strong>".data "</strong>".data) t
  let t := subAll (pairMatcher "~~".data "<del>".data "</del>".data) t
  let t := subAll italicMatcher t
  String.mk (restoreSpans 0 pr.1 t)

/-- `row.split("|")`, structurally. -/
def splitPipe : List Char → List (List Char)
  | [] => [[]]
  | c :: cs =>
    let r := splitPipe cs
    if c = '|' then [] :: r
    else
      match r with
      | [] => [[c]]
      | h :: t => (c :: h) :: t

/-- Cell extraction of `flush_table`: split the raw row on `|`, strip each
cell, and drop a leading/trailing empty cell produced by the outer pipes. -/
def tableCells (row : String) : List String :=
  let cells := (splitPipe row.data).map fun cs => String.mk (trimChars cs)
  let cells := if cells.head? = some "" then cells.drop 1 else cells
  if cells.getLast? = some "" then cells.dropLast else cells

/-- The separator-cell test: the cell is empty after stripping `-` and `:`
(`str.replace` with an empty replacement deletes every occurrence, so it is a
character filter). -/
def sepCell (c : String) : Bool :=
  (((trimChars c.data).filter fun ch => ch ≠ '-').filter fun ch => ch ≠ ':').isEmpty

/-- `f"<{tag}>{inline_format(escape(c))}</{tag}>"` for one table cell. -/
def cellHtml (tag c : String) : String :=
  "<" ++ tag ++ ">" ++ inline_format (escapeHtml c) ++ "</" ++ tag ++ ">"

/-- One iteration of the `flush_table` row loop: a row whose cells are all
separator cells contributes nothing (`continue`); row index 0 renders `th`
cells, every other row `td` cells. -/
def rowHtml (ri : Nat) (row : String) : String :=
  let cells := tableCells row
  if cells.all sepCell then ""
  else
    let tag := if ri = 0 then "th" else "td"
    "<tr>" ++ String.join (cells.map fun c => cellHtml tag c) ++ "</tr>"

/-- The html fragments appended by `flush_table` (`src/cli/markdown.py`,
lines 59-77): nothing for an empty buffer, else one table element. -/
def flush_table (table_rows : List String) : List String :=
  if table_rows.isEmpty then []
  else
    ["<div class=\"md-table-wrap\"><table>" ++
      String.join (table_rows.enum.map fun pr => rowHtml pr.1 pr.2) ++
      "</table></div>"]

/-- The regex `^(\s*[-*_]\s*){3,}$` (horizontal rule): the line consists of
whitespace and `-`/`*`/`_` only, with at least three marker characters. -/
def isHrLine (s : String) : Bool :=
  s.data.all (fun c => c.isWhitespace || c = '-' || c = '*' || c = '_') &&
  3 ≤ (s.data.filter (fun c => c = '-' || c = '*' || c = '_')).length

/-- `re.match(r'^(#{1,6})\s+(.+)$', line)`: 1-6 leading `#`, at least one
whitespace character, then nonempty content.  When only whitespace follows
the hashes, backtracking leaves the last whitespace character as content. -/
def headingMatch (line : String) : Option (Nat × String) :=
  let cs := line.data
  let k := (cs.takeWhile (fun c => c = '#')).length
  if 1 ≤ k ∧ k ≤ 6 then
    let rest := cs.drop k
    let w := rest.takeWhile Char.isWhitespace
    let tail := rest.drop w.length
    if w.isEmpty then none
    else if !tail.isEmpty then some (k, String.mk tail)
    else
      match w.reverse with
      | c :: _ :: _ => some (k, String.mk [c])
      | _ => none
  else none

/-- `re.match(r'^(\s*)([-*+])\s+(.+)$', line)`: returns (indent, content). -/
def ulMatch (line : String) : Option (Nat × String) :=
  let cs := line.data
  let w := cs.takeWhile Char.isWhitespace
  match cs.drop w.length with
  | m :: rest =>
    if m = '-' ∨ m = '*' ∨ m = '+' then
      let w2 := rest.takeWhile Char.isWhitespace
      let tail := rest.drop w2.length
      if w2.isEmpty then none
      else if !tail.isEmpty then some (w.length, String.mk tail)
      else
        match w2.reverse with
        | c :: _ :: _ => some (w.length, String.mk [c])
        | _ => none
    else none
  | [] => none

/-- `re.match(r'^(\s*)(\d+)[.)]\s+(.+)$', line)`: (indent, digits, content). -/
def olMatch (line : String) : Option (Nat × String × String) :=
  let cs := line.data
  let w := cs.takeWhile Char.isWhitespace
  let rest := cs.drop w.length
  let ds := rest.takeWhile Char.isDigit
  if ds.isEmpty then none
  else
    match rest.drop ds.length with
    | sep :: rest2 =>
      if sep = '.' ∨ sep = ')' then
        let w2 := rest2.takeWhile Char.isWhitespace
        let tail := rest2.drop w2.length
        if w2.isEmpty then none
        else if !tail.isEmpty then some (w.length, String.mk ds, String.mk tail)
        else
          match w2.reverse with
          | c :: _ :: _ => some (w.length, String.mk ds, String.mk [c])
          | _ => none
      else none
    | [] => none

/-- The mutable state of the `simple_markdown` line loop. -/
structure MDState where
  result : List String := []
  in_code_block : Bool := false
  code_lang : String := ""
  code_lines : List String := []
  in_table : Bool := false
  table_rows : List String := []

/-- The `flush_table` closure: no-op on an empty buffer, otherwise append the
table html and reset the table state. -/
def mdFlushTable (st : MDState) : MDState :=
  if st.table_rows.isEmpty then st
  else
    { st with result := st.result ++ flush_table st.table_rows,
              table_rows := [], in_table := false }

/-- The body of `simple_markdown`'s `for line in lines` loop
(`src/cli/markdown.py`, lines 80-162), branch for branch in source order. -/
def mdStep (st : MDState) (line : String) : MDState :=
  let stripped := pyStrip line
  if strStarts stripped "```" then
    let st := if st.in_table then mdFlushTable st else st
    if st.in_code_block then
      { st with
        result := st.result ++
          ["<pre><code class=\"lang-" ++ escapeHtml st.code_lang ++ "\">" ++
            escapeHtml (String.intercalate "\n" st.code_lines) ++ "</code></pre>"]
        code_lines := []
        in_code_block := false }
    else
      { st with code_lang := pyStrip (strDropN stripped 3), in_code_block := true }
  else if st.in_code_block then
    { st with code_lines := st.code_lines ++ [line] }
  else if strContainsChar stripped '|' && strStarts stripped "|" then
    let st := if !st.in_table then { st with in_table := true, table_rows := [] } else st
    { st with table_rows := st.table_rows ++ [stripped] }
  else
    let st := if st.in_table then mdFlushTable st else st
    if isHrLine stripped then { st with result := st.result ++ ["<hr>"] }
    else
      match headingMatch line with
      | some pr =>
        let tagN := min (pr.1 + 1) 6
        { st with result := st.result ++
            ["<h" ++ toString tagN ++ ">" ++ inline_format (escapeHtml pr.2) ++
              "</h" ++ toString tagN ++ ">"] }
      | none =>
        if stripped.isEmpty then st
        else if strStarts stripped "> " then
          { st with result := st.result ++
              ["<blockquote>" ++ inline_format (escapeHtml (strDropN stripped 2)) ++
                "</blockquote>"] }
        else if stripped = ">" then
          { st with result := st.result ++ ["<blockquote><br></blockquote>"] }
        else
          match ulMatch line with
          | some pr =>
            { st with result := st.result ++
                ["<div class=\"md-li\" style=\"margin-left:" ++ toString (pr.1 * 12) ++
                  "px\">• " ++ inline_format (escapeHtml pr.2) ++ "</div>"] }
          | none =>
            match olMatch line with
            | some pr =>
              { st with result := st.result ++
                  ["<div class=\"md-li\" style=\"margin-left:" ++ toString (pr.1 * 12) ++
                    "px\">" ++ pr.2.1 ++ ". " ++ inline_format (escapeHtml pr.2.2) ++
                    "</div>"] }
            | none =>
              { st with result := st.result ++
                  ["<p>" ++ inline_format (escapeHtml line) ++ "</p>"] }

/-- The initial loop state. -/
def initMDState : MDState := {}

/-- `text.split("\n")`, implemented structurally: Python's split always
returns one (possibly empty) piece more than the number of separators. -/
def splitNL : List Char → List (List Char)
  | [] => [[]]
  | c :: cs =>
    let r := splitNL cs
    if c = '\n' then [] :: r
    else
      match r with
      | [] => [[c]]
      | h :: t => (c :: h) :: t

/-- The lines of the input, as strings. -/
def mdLines (text : String) : List String := (splitNL text.data).map String.mk

/-- `simple_markdown` (`src/cli/markdown.py`, lines 49-173): run the line
loop, then flush a still-open fence (only when it accumulated lines — and
then without a language class) and a still-open table. -/
def simple_markdown (text : String) : String :=
  let st := (mdLines text).foldl mdStep initMDState
  let st :=
    if st.in_code_block ∧ ¬st.code_lines.isEmpty then
      { st with result := st.result ++
          ["<pre><code>" ++ escapeHtml (String.intercalate "\n" st.code_lines) ++
            "</code></pre>"] }
    else st
  let st := if st.in_table then mdFlushTable st else st
  String.intercalate "\n" st.result

/-! ## Helper lemmas -/

/-- The list of recognized explicit type discriminants. -/
def recognizedTags : List String :=
  [tagTextT, tagReasoningT, tagImageT, tagDocumentT, tagVideoT, tagAudioT, tagToolT]

/-- The short variant tag corresponding to a recognized discriminant. -/
def variantOfTag (t : String) : String :=
  if t = tagTextT then "text"
  else if t = tagReasoningT then "reasoning"
  else if t = tagImageT then "image"
  else if t = tagDocumentT then "document"
  else if t = tagVideoT then "video"
  else if t = tagAudioT then "audio"
  else if t = tagToolT then "tool"
  else ""

/-- The fixed set of short type tags a produced part can carry. -/
def partTags : List String :=
  ["text", "reasoning", "image", "document", "video", "audio", "tool"]

mutual
/-- A produced part together with all parts nested in tool outputs, at any
depth. -/
def allSubparts : MessagePart → List MessagePart
  | .mk t tx u fn mi ca fi tc tn inp out =>
    .mk t tx u fn mi ca fi tc tn inp out :: allSubpartsList out

def allSubpartsList : MessageParts → List MessagePart
  | .nil => []
  | .cons p ps => allSubparts p ++ allSubpartsList ps
end

/-! ## Definitions for the code-span preservation analysis (claim C8)

The masked text produced by code-span extraction, and its transforms under
the substitution stages, are related to token lists: alternations of plain
chunks and placeholder tokens. -/

/-- Value of a decimal digit character. -/
def digitVal (c : Char) : Nat := c.toNat - 48

/-- Read a decimal digit string back (left fold). -/
def parseDec (cs : List Char) : Nat := cs.foldl (fun a c => 10 * a + digitVal c) 0

/-- The characters a placeholder token is made of. -/
def phChar (c : Char) : Prop := c = '\x00' ∨ c = 'C' ∨ c.isDigit = true

instance (c : Char) : Decidable (phChar c) := by unfold phChar; infer_instance

/-- A pattern literal: no placeholder characters at all. -/
def patLit (w : List Char) : Prop := ∀ c ∈ w, ¬ phChar c

/-- A template literal / chunk: free of NUL and of `C` (it can contain
digits). -/
def tplLit (w : List Char) : Prop := ∀ c ∈ w, c ≠ '\x00' ∧ c ≠ 'C'

/-- A token of the masked text: a plain chunk or the placeholder for span
`i`. -/
inductive Tok where
  | chunk (w : List Char)
  | ph (i : Nat)
  deriving DecidableEq

/-- Flatten a token list to text. -/
def renderT : List Tok → List Char
  | [] => []
  | .chunk w :: r => w ++ renderT r
  | .ph i :: r => placeholderTok i ++ renderT r

/-- The sequence of placeholder indexes of a token list. -/
def phSeq : List Tok → List Nat
  | [] => []
  | .chunk _ :: r => phSeq r
  | .ph i :: r => i :: phSeq r

/-- Chunk well-formedness during the substitution stages: chunks are free of
NUL and `C`. -/
def TokOK : Tok → Prop
  | .chunk w => tplLit w
  | .ph _ => True

/-- Chunk well-formedness during restoration: chunks are NUL-free and do not
begin with `C` (restored span contents may contain `C` internally). -/
def RTokOK : Tok → Prop
  | .chunk w => (∀ c ∈ w, c ≠ '\x00') ∧ ∀ c, w.head? = some c → c ≠ 'C'
  | .ph _ => True

/-- The shape of one match of a substitution stage: literal pattern pieces
around one or two lazily matched groups, with the groups transplanted
verbatim into the replacement between template literals (the two-group form
emits the groups in swapped order, as the image and link stages do). -/
def MShape (consumed r : List Char) : Prop :=
  (∃ a g b t1 t2, patLit a ∧ patLit b ∧ a ≠ [] ∧ b ≠ [] ∧ tplLit t1 ∧
    tplLit t2 ∧ consumed = a ++ (g ++ b) ∧ r = t1 ++ (g ++ t2)) ∨
  (∃ a g1 b g2 c t1 t2 t3, patLit a ∧ patLit b ∧ patLit c ∧ a ≠ [] ∧ b ≠ [] ∧
    c ≠ [] ∧ tplLit t1 ∧ tplLit t2 ∧ tplLit t3 ∧
    consumed = a ++ (g1 ++ (b ++ (g2 ++ c))) ∧
    r = t1 ++ (g2 ++ (t2 ++ (g1 ++ t3))))

/-- What every substitution matcher guarantees: it never fires on a
placeholder character, and every match consumes a nonempty prefix that
decomposes as an `MShape` relative to the replacement. -/
def MatcherOK (m : SubMatcher) : Prop :=
  (∀ prev c cs, phChar c → m prev (c :: cs) = none) ∧
  (∀ prev s r k, m prev s = some (r, k) →
    1 ≤ k ∧ k ≤ s.length ∧ MShape (s.take k) r)

/-- Replace the placeholder token `i` by an inserted chunk. -/
def replacePh (i : Nat) (ins : List Char) (t : Tok) : Tok :=
  if t = .ph i then .chunk ins else t

/-- Token-level model of the restoration loop: step `st` replaces every
placeholder token `st` by the wrapped content of the current span. -/
def restoreT : Nat → List (List Char) → List Tok → List Tok
  | _, [], toks => toks
  | st, sp :: rest, toks =>
    restoreT (st + 1) rest
      (toks.map (replacePh st ("<code>".data ++ sp ++ "</code>".data)))

theorem parse_message_parts_toList : ∀ ps : RawParts,
    (parse_message_parts ps).toList = ps.toList.filterMap parse_message_part
  | .nil => rfl
  | .cons p ps => by
    simp only [parse_message_parts, RawParts.toList, List.filterMap_cons]
    cases h : parse_message_part p with
    | none => simpa using parse_message_parts_toList ps
    | some q => simpa [MessageParts.toList] using parse_message_parts_toList ps

mutual
theorem parse_tag_mem : ∀ (p : RawPart) (q : MessagePart),
    parse_message_part p = some q → ∀ r ∈ allSubparts q, r.type ∈ partTags
  | .mk ty tx rs url fn mi ca fi tc tn inp out => fun q hq r hr => by
    simp only [parse_message_part] at hq
    split at hq
    · split at hq
      · exact absurd hq (by simp)
      · cases hq
        simp only [mkTextPart, allSubparts, allSubpartsList, List.mem_cons,
          List.not_mem_nil, or_false] at hr
        subst hr
        simp [MessagePart.type, partTags]
    · split at hq
      · cases hq
        simp only [mkReasoningPart, allSubparts, allSubpartsList, List.mem_cons,
          List.not_mem_nil, or_false] at hr
        subst hr
        simp [MessagePart.type, partTags]
      · split at hq
        · split at hq
          · exact absurd hq (by simp)
          · cases hq
            simp only [mkImagePart, allSubparts, allSubpartsList, List.mem_cons,
              List.not_mem_nil, or_false] at hr
            subst hr
            simp [MessagePart.type, partTags]
        · split at hq
          · cases hq
            simp only [mkDocumentPart, allSubparts, allSubpartsList, List.mem_cons,
              List.not_mem_nil, or_false] at hr
            subst hr
            simp [MessagePart.type, partTags]
          · split at hq
            · cases hq
              simp only [mkVideoPart, allSubparts, allSubpartsList, List.mem_cons,
                List.not_mem_nil, or_false] at hr
              subst hr
              simp [MessagePart.type, partTags]
            · split at hq
              · cases hq
                simp only [mkAudioPart, allSubparts, allSubpartsList, List.mem_cons,
                  List.not_mem_nil, or_false] at hr
                subst hr
                simp [MessagePart.type, partTags]
              · split at hq
                · cases hq
                  simp only [mkToolPart, allSubparts, allSubpartsList,
                    List.mem_cons] at hr
                  rcases hr with hr | hr
                  · subst hr
                    simp [MessagePart.type, partTags]
                  · exact parse_tag_mem_list out r hr
                · split at hq
                  · cases hq
                    simp only [mkTextPart, allSubparts, allSubpartsList, List.mem_cons,
                      List.not_mem_nil, or_false] at hr
                    subst hr
                    simp [MessagePart.type, partTags]
                  · exact absurd hq (by simp)

theorem parse_tag_mem_list : ∀ (ps : RawParts) (r : MessagePart),
    r ∈ allSubpartsList (parse_message_parts ps) → r.type ∈ partTags
  | .nil => by
    intro r hr
    simp [parse_message_parts, allSubpartsList] at hr
  | .cons p ps => by
    intro r hr
    cases h : parse_message_part p with
    | none =>
      simp only [parse_message_parts, h] at hr
      exact parse_tag_mem_list ps r hr
    | some q =>
      simp only [parse_message_parts, h, allSubpartsList, List.mem_append] at hr
      rcases hr with hr | hr
      · exact parse_tag_mem p q h r hr
      · exact parse_tag_mem_list ps r hr
end

/-! ## Claims about the part classifier -/

/-- C1 (amended): a record whose `type` field is a recognized discriminant and
which carries none of the structural fields `text`, `reasoning`, `url`,
`fileName`, `toolCallId`, `toolName` classifies to the discriminant's variant,
regardless of the remaining fields (`mime`, `createdAt`, `finishedAt`,
`input`, `output`).  (As originally stated — regardless of ALL other fields —
the claim is false, see the counterexample.) -/
theorem claim_C1 (tag : String) (htag : tag ∈ recognizedTags)
    (mi ca fi inp : Option PValue) (out : RawParts) :
    ∃ q, parse_message_part
        (.mk (some (.vstr tag)) none none none none mi ca fi none none inp out) =
        some q ∧ q.type = variantOfTag tag := by
  simp only [recognizedTags, List.mem_cons, List.not_mem_nil, or_false] at htag
  rcases htag with rfl | rfl | rfl | rfl | rfl | rfl | rfl
  · exact ⟨mkTextPart (PValue.vstr ""), rfl, rfl⟩
  · exact ⟨mkReasoningPart (PValue.vstr "") (getPV ca) fi, rfl, rfl⟩
  · exact ⟨mkImagePart (PValue.vstr ""), rfl, rfl⟩
  · exact ⟨mkDocumentPart (PValue.vstr "") (PValue.vstr "") (getPV mi), rfl, rfl⟩
  · exact ⟨mkVideoPart (PValue.vstr ""), rfl, rfl⟩
  · exact ⟨mkAudioPart (PValue.vstr ""), rfl, rfl⟩
  · exact ⟨mkToolPart (PValue.vstr "") (PValue.vstr "") (getPV inp)
      (parse_message_parts out), rfl, rfl⟩

theorem claim_C1_witness :
    ∃ q, parse_message_part
        (.mk (some (.vstr tagReasoningT)) none none none none none none none
          none none none .nil) = some q ∧ q.type = variantOfTag tagReasoningT :=
  claim_C1 tagReasoningT (by simp [recognizedTags]) none none none none .nil

/-- C1 counterexample: a record with the explicit `Reasoning` discriminant and
a `text` field classifies as a Text part, not a Reasoning part. -/
theorem claim_C1_cex :
    (parse_message_part
        (.mk (some (.vstr tagReasoningT)) (some (.vstr "x")) none none none none
          none none none none none .nil)).map MessagePart.type = some "text" ∧
      "text" ≠ "reasoning" :=
  ⟨rfl, by decide⟩

/-- C2 (amended): with no recognized discriminant, no `reasoning` field and a
`fileName` field present, the record classifies as a Document (url, fileName,
mime as given, defaulting to the empty string), even when `text`, `url`,
`toolCallId` or `toolName` are present.  (As originally stated the rule
claimed precedence over the reasoning rule too, which is false.) -/
theorem claim_C2 (ty : Option PValue)
    (hrec : ∀ t ∈ recognizedTags, getPV ty ≠ .vstr t)
    (tx url mi ca fi tc tn inp : Option PValue) (v : PValue) (out : RawParts) :
    parse_message_part (.mk ty tx none url (some v) mi ca fi tc tn inp out) =
      some (mkDocumentPart (getPV url) v (getPV mi)) := by
  have h1 : getPV ty ≠ PValue.vstr tagTextT := hrec _ (by simp [recognizedTags])
  have h2 : getPV ty ≠ PValue.vstr tagReasoningT := hrec _ (by simp [recognizedTags])
  have h3 : getPV ty ≠ PValue.vstr tagImageT := hrec _ (by simp [recognizedTags])
  simp only [getPV] at h1 h2 h3
  simp [parse_message_part, h1, h2, h3, getPV]

theorem claim_C2_witness :
    parse_message_part
        (.mk none none none none (some (.vstr "f")) none none none
          (some (.vstr "id")) none none .nil) =
      some (mkDocumentPart (.vstr "") (.vstr "f") (.vstr "")) :=
  claim_C2 none (by decide) none none none none none (some (.vstr "id")) none
    none (.vstr "f") .nil

/-- C2 counterexample: a record with both `fileName` and `reasoning` present
(and no discriminant) classifies as Reasoning, not Document: the reasoning
rule precedes the fileName rule in the code. -/
theorem claim_C2_cex :
    parse_message_part
        (.mk none none (some (.vstr "r")) none (some (.vstr "f")) none none none
          none none none .nil) =
      some (mkReasoningPart (.vstr "r") (.vstr "") none) ∧
      "reasoning" ≠ "document" :=
  ⟨rfl, by decide⟩

/-- C3 (amended): with no recognized discriminant, no `fileName` and no
`reasoning` field, a record with `toolCallId` present classifies as a Tool
part whose `input` defaults to the empty string and whose output sequence is
the recursive classification of the raw `output` entries with the absent ones
dropped (a `filterMap`), hence of length at most the raw length and order
preserving.  (As originally stated, `toolName` alone was also said to trigger
the rule, which is false.) -/
theorem claim_C3 (ty : Option PValue)
    (hrec : ∀ t ∈ recognizedTags, getPV ty ≠ .vstr t)
    (tx url mi ca fi tn inp : Option PValue) (v : PValue) (out : RawParts) :
    parse_message_part (.mk ty tx none url none mi ca fi (some v) tn inp out) =
      some (mkToolPart v (getPV tn) (getPV inp) (parse_message_parts out)) ∧
    (parse_message_parts out).toList = out.toList.filterMap parse_message_part ∧
    (parse_message_parts out).toList.length ≤ out.toList.length := by
  have h1 : getPV ty ≠ PValue.vstr tagTextT := hrec _ (by simp [recognizedTags])
  have h2 : getPV ty ≠ PValue.vstr tagReasoningT := hrec _ (by simp [recognizedTags])
  have h3 : getPV ty ≠ PValue.vstr tagImageT := hrec _ (by simp [recognizedTags])
  have h4 : getPV ty ≠ PValue.vstr tagDocumentT := hrec _ (by simp [recognizedTags])
  have h5 : getPV ty ≠ PValue.vstr tagVideoT := hrec _ (by simp [recognizedTags])
  have h6 : getPV ty ≠ PValue.vstr tagAudioT := hrec _ (by simp [recognizedTags])
  simp only [getPV] at h1 h2 h3 h4 h5 h6
  refine ⟨?_, parse_message_parts_toList out, ?_⟩
  · simp [parse_message_part, h1, h2, h3, h4, h5, h6, getPV]
  · rw [parse_message_parts_toList]
    exact List.length_filterMap_le _ _

theorem claim_C3_witness :
    parse_message_part
        (.mk none none none none none none none none (some (.vstr "id")) none
          none (.cons (.mk none (some (.vstr "t")) none none none none none none
            none none none .nil) .nil)) =
      some (mkToolPart (.vstr "id") (.vstr "") (.vstr "")
        (.cons (mkTextPart (.vstr "t")) .nil)) :=
  (claim_C3 none (by decide) none none none none none none none (.vstr "id")
    (.cons (.mk none (some (.vstr "t")) none none none none none none none none
      none .nil) .nil)).1

/-- C3 counterexample: a record whose only field is `toolName` classifies to
absence, not to a Tool part — the structural tool rule tests `toolCallId`
only. -/
theorem claim_C3_cex :
    parse_message_part
        (.mk none none none none none none none none none (some (.vstr "n"))
          none .nil) = none :=
  rfl

/-- C9 (amended): with no recognized discriminant and none of `reasoning`,
`toolCallId`, `toolName`, `url`, `fileName` present, a record with a
string-valued `text` field classifies as a Text part carrying that string —
except that when the string is empty and the `type` field is absent or falsy
the record classifies to absence.  (As originally stated the empty string was
claimed to yield a Text part as well, which is false.) -/
theorem claim_C9 (ty : Option PValue)
    (hrec : ∀ t ∈ recognizedTags, getPV ty ≠ .vstr t)
    (mi ca fi inp : Option PValue) (s : String) (out : RawParts) :
    parse_message_part
        (.mk ty (some (.vstr s)) none none none mi ca fi none none inp out) =
      (if s.isEmpty ∧ (getPV ty).truthy = false then none
       else some (mkTextPart (.vstr s))) := by
  simp only [parse_message_part]
  rw [if_pos (Or.inr (by simp))]
  by_cases hs : s.isEmpty
  · simp [getPV, PValue.truthy, hs]
  · simp [getPV, PValue.truthy, hs]

theorem claim_C9_witness :
    parse_message_part
        (.mk none (some (.vstr "hi")) none none none none none none none none
          none .nil) = some (mkTextPart (.vstr "hi")) := by
  simpa using claim_C9 none (by decide) none none none none "hi" .nil

/-- C9 counterexample: a record whose only field is `text` with the empty
string classifies to absence, not to a Text part. -/
theorem claim_C9_cex :
    parse_message_part
        (.mk none (some (.vstr "")) none none none none none none none none none
          .nil) = none :=
  rfl

/-- C10: every part produced by the classifier, at any recursion depth
(including all entries of tool outputs), carries a type tag drawn from the
fixed set text/reasoning/image/document/video/audio/tool, and classification
of any record yields either such a part or absence. -/
theorem claim_C10 (p : RawPart) :
    parse_message_part p = none ∨
    ∃ q, parse_message_part p = some q ∧ ∀ r ∈ allSubparts q, r.type ∈ partTags := by
  cases h : parse_message_part p with
  | none => exact Or.inl rfl
  | some q => exact Or.inr ⟨q, rfl, parse_tag_mem p q h⟩

/-! ## Claims about message assembly -/

/-- C4 (amended): assembling an empty variant list yields absence for every
selected index; for a non-empty list with an out-of-range index whose first
variant is a non-empty record, the active variant is the first one and the
produced message records `branch_count = len(variants)` and
`branch_index = select_index` exactly as provided.  (As originally stated the
message was claimed to be produced for every non-empty variant list; an empty
record as the active variant yields absence, see the counterexample.) -/
theorem claim_C4 :
    (∀ i : Int, assemble [] i = none) ∧
    (∀ (v : RawMsg) (vs : List RawMsg) (i : Int),
      ¬(0 ≤ i ∧ i < ((v :: vs).length : Int)) → v.truthy = true →
      assemble (v :: vs) i =
        some { parse_ui_message v with
                branch_count := (v :: vs).length, branch_index := i }) := by
  refine ⟨fun i => rfl, fun v vs i hi hv => ?_⟩
  simp only [assemble]
  rw [if_neg hi, if_pos hv]

theorem claim_C4_witness :
    ¬((0 : Int) ≤ 5 ∧ (5 : Int) < (([{ role? := some (.vstr "user") }] : List RawMsg).length : Int)) ∧
    assemble [{ role? := some (.vstr "user") }] 5 =
      some { parse_ui_message { role? := some (.vstr "user") } with
              branch_count := 1, branch_index := 5 } :=
  ⟨by decide, claim_C4.2 { role? := some (.vstr "user") } [] 5 (by decide) rfl⟩

/-- C4 counterexample: a singleton variant list whose only record is empty
yields no message at all (for the out-of-range index 5), while the claim
promises a message recording `branchCount`/`branchIndex`. -/
theorem claim_C4_cex : assemble [({} : RawMsg)] 5 = none := rfl

/-- C7 (amended): usage normalization accepts both naming conventions with
camelCase preferred, defaults each missing sub-field to zero, and yields an
absent usage exactly when the raw usage object is absent or falsy (in
particular an empty usage object yields absence, not a zeroed triple — the
latter is what the original claim asserted, see the counterexample). -/
theorem claim_C7 (m : RawMsg) :
    ((parse_ui_message m).usage = none ↔ ∀ u, m.usage? = some u → u.truthy = false) ∧
    (∀ u, m.usage? = some u → u.truthy = true →
      (parse_ui_message m).usage =
        some ⟨u.promptTokensC?.getD (u.promptTokensS?.getD 0),
              u.completionTokensC?.getD (u.completionTokensS?.getD 0),
              u.totalTokensC?.getD (u.totalTokensS?.getD 0)⟩) := by
  cases hm : m.usage? with
  | none =>
    refine ⟨by simp [parse_ui_message, hm], fun u hu => by simp [hm] at hu⟩
  | some u =>
    constructor
    · by_cases ht : u.truthy <;> simp [parse_ui_message, hm, ht]
    · intro u2 hu2 ht
      cases hu2
      simp [parse_ui_message, hm, ht]

theorem claim_C7_witness :
    (parse_ui_message { usage? := some { promptTokensC? := some 3 } }).usage =
      some ⟨3, 0, 0⟩ :=
  (claim_C7 { usage? := some { promptTokensC? := some 3 } }).2
    { promptTokensC? := some 3 } rfl rfl

/-- C7 counterexample: a present but empty usage object yields absent usage,
not a zeroed triple. -/
theorem claim_C7_cex :
    (parse_ui_message { usage? := some ({} : RawUsage) }).usage = none := rfl

/-! ## Claims about the markdown renderer -/

theorem mdStep_in_fence (st : MDState) (l : String)
    (hcb : st.in_code_block = true)
    (hl : strStarts (pyStrip l) "```" = false) :
    mdStep st l = { st with code_lines := st.code_lines ++ [l] } := by
  simp [mdStep, hl, hcb]

theorem foldl_mdStep_fence : ∀ (ls : List String) (st : MDState),
    st.in_code_block = true →
    (∀ l ∈ ls, strStarts (pyStrip l) "```" = false) →
    ls.foldl mdStep st = { st with code_lines := st.code_lines ++ ls }
  | [], st, _, _ => by simp
  | l :: ls, st, hcb, hls => by
    rw [List.foldl_cons, mdStep_in_fence st l hcb (hls l (by simp))]
    rw [foldl_mdStep_fence ls _ (by simp [hcb]) (fun x hx => hls x (by simp [hx]))]
    simp

/-- C5 (amended): when the input's lines are a prefix that leaves the state
machine outside any fence and table, then a fence-opening line, then at least
one further line none of which closes the fence, the renderer still emits a
code block holding exactly the accumulated lines (without a language class).
(As originally stated the block was claimed to be emitted even with zero
accumulated lines; with zero lines the open fence is discarded instead, see
the counterexample.) -/
theorem claim_C5 (text opener : String) (pre ls : List String)
    (hsplit : mdLines text = pre ++ opener :: ls)
    (hopen : strStarts (pyStrip opener) "```" = true)
    (hcb : (pre.foldl mdStep initMDState).in_code_block = false)
    (hcl : (pre.foldl mdStep initMDState).code_lines = [])
    (htb : (pre.foldl mdStep initMDState).in_table = false)
    (hne : ls ≠ [])
    (hls : ∀ l ∈ ls, strStarts (pyStrip l) "```" = false) :
    simple_markdown text =
      String.intercalate "\n" ((pre.foldl mdStep initMDState).result ++
        ["<pre><code>" ++ escapeHtml (String.intercalate "\n" ls) ++
          "</code></pre>"]) := by
  unfold simple_markdown
  rw [hsplit, List.foldl_append, List.foldl_cons]
  have hstep : mdStep (pre.foldl mdStep initMDState) opener =
      { pre.foldl mdStep initMDState with
          code_lang := pyStrip (strDropN (pyStrip opener) 3), in_code_block := true } := by
    simp [mdStep, hopen, htb, hcb, mdFlushTable]
  rw [hstep, foldl_mdStep_fence ls _ (by simp) (hls)]
  simp [hcl, htb, hne]

theorem claim_C5_witness :
    simple_markdown "```\nhello" = "<pre><code>hello</code></pre>" := by
  have h := claim_C5 "```\nhello" "```" [] ["hello"] rfl rfl rfl rfl rfl
    (by simp) (by intro l hl; simp at hl; subst hl; rfl)
  simpa using h

/-- C5 counterexample: an input that is just an opening fence delimiter (zero
accumulated lines) renders to the empty output — no code block is emitted. -/
theorem claim_C5_cex :
    simple_markdown "```" = "" ∧ "" ≠ "<pre><code></code></pre>" :=
  ⟨rfl, by decide⟩

/-- C6 (amended): in the table flush, every row whose cells all become empty
after stripping `-` and `:` is a separator row and contributes nothing; a
non-separator row at buffer index 0 is rendered as the header row and
non-separator rows at any other index as data rows (so a non-separator row
preceded by a leading separator row is rendered as data, not as header — the
original claim's "first non-separator row is the header" is false, see the
counterexample); the concrete input rows `|a|b|`, `|-|-|`, `|1|2|` render one
table with header `[a, b]`, one data row `[1, 2]`, and no separator row. -/
theorem claim_C6 :
    (∀ (ri : Nat) (row : String), (tableCells row).all sepCell = true →
      rowHtml ri row = "") ∧
    (∀ row : String, (tableCells row).all sepCell = false →
      rowHtml 0 row =
        "<tr>" ++ String.join ((tableCells row).map fun c => cellHtml "th" c) ++
          "</tr>") ∧
    (∀ (ri : Nat) (row : String), ri ≠ 0 → (tableCells row).all sepCell = false →
      rowHtml ri row =
        "<tr>" ++ String.join ((tableCells row).map fun c => cellHtml "td" c) ++
          "</tr>") ∧
    simple_markdown "|a|b|\n|-|-|\n|1|2|" =
      "<div class=\"md-table-wrap\"><table><tr><th>a</th><th>b</th></tr><tr><td>1</td><td>2</td></tr></table></div>" := by
  refine ⟨fun ri row h => ?_, fun row h => ?_, fun ri row hri h => ?_, rfl⟩
  · simp [rowHtml, h]
  · simp [rowHtml, h]
  · simp [rowHtml, h, hri]

theorem claim_C6_witness :
    ((tableCells "|-|:-:|").all sepCell = true ∧ rowHtml 1 "|-|:-:|" = "") ∧
    ((tableCells "|x|y|").all sepCell = false ∧ rowHtml 1 "|x|y|" =
      "<tr>" ++ String.join ((tableCells "|x|y|").map fun c => cellHtml "td" c) ++
        "</tr>") :=
  ⟨⟨by decide, claim_C6.1 1 "|-|:-:|" (by decide)⟩,
   ⟨by decide, claim_C6.2.2.1 1 "|x|y|" (by decide) (by decide)⟩⟩

/-- C6 counterexample: when the first accumulated row is a separator row, the
first non-separator row is rendered as a data row (`td`), not as the header
row (`th`). -/
theorem claim_C6_cex :
    simple_markdown "|-|-|\n|a|b|" =
      "<div class=\"md-table-wrap\"><table><tr><td>a</td><td>b</td></tr></table></div>" :=
  rfl

/-! ## Code-span preservation (claim C8): basic lemmas -/

theorem parseDec_append (xs : List Char) (c : Char) :
    parseDec (xs ++ [c]) = 10 * parseDec xs + digitVal c := by
  simp [parseDec, List.foldl_append]

theorem digitVal_digitChar (n : Nat) (h : n < 10) : digitVal (digitChar n) = n := by
  interval_cases n <;> rfl

theorem digitChar_isDigit (n : Nat) : (digitChar n).isDigit = true := by
  unfold digitChar
  split <;> decide

theorem parseDec_natDecimalAux : ∀ (fuel n : Nat), n < fuel →
    parseDec (natDecimalAux fuel n) = n
  | 0, n, h => absurd h (Nat.not_lt_zero n)
  | fuel + 1, n, h => by
    unfold natDecimalAux
    by_cases h10 : n < 10
    · simp [h10, parseDec, digitVal_digitChar n h10]
    · have hd : n / 10 < fuel := by
        have h1 : n / 10 < n := Nat.div_lt_self (by omega) (by omega)
        omega
      simp only [h10, if_false]
      rw [parseDec_append, parseDec_natDecimalAux fuel (n / 10) hd,
        digitVal_digitChar _ (Nat.mod_lt n (by omega))]
      omega

theorem natDecimal_inj {m n : Nat} (h : natDecimal m = natDecimal n) : m = n := by
  have hm := parseDec_natDecimalAux (m + 1) m (by omega)
  have hn := parseDec_natDecimalAux (n + 1) n (by omega)
  unfold natDecimal at h
  rw [h, hn] at hm
  omega

theorem natDecimalAux_digits : ∀ fuel n, ∀ c ∈ natDecimalAux fuel n, c.isDigit = true
  | 0, n => by simp [natDecimalAux]
  | fuel + 1, n => by
    unfold natDecimalAux
    by_cases h10 : n < 10
    · simp only [h10, if_true, List.mem_singleton]
      rintro c rfl
      exact digitChar_isDigit n
    · simp only [h10, if_false, List.mem_append, List.mem_singleton]
      rintro c (hc | rfl)
      · exact natDecimalAux_digits fuel (n / 10) c hc
      · exact digitChar_isDigit (n % 10)

theorem natDecimal_digits (n : Nat) : ∀ c ∈ natDecimal n, c.isDigit = true :=
  natDecimalAux_digits (n + 1) n

theorem isDigit_ne_nul {c : Char} (h : c.isDigit = true) : c ≠ '\x00' := by
  rintro rfl
  exact absurd h (by decide)

theorem isDigit_phChar {c : Char} (h : c.isDigit = true) : phChar c :=
  Or.inr (Or.inr h)

theorem phChar_placeholderTok (i : Nat) : ∀ c ∈ placeholderTok i, phChar c := by
  intro c hc
  simp only [placeholderTok, List.mem_cons, List.mem_append, List.mem_singleton,
    List.not_mem_nil, or_false] at hc
  rcases hc with (rfl | rfl | hmem) | rfl
  · exact Or.inl rfl
  · exact Or.inr (Or.inl rfl)
  · exact isDigit_phChar (natDecimal_digits i c hmem)
  · exact Or.inl rfl

theorem placeholderTok_ne_nil (i : Nat) : placeholderTok i ≠ [] := by
  simp [placeholderTok]

theorem patLit_tplLit {w : List Char} (h : patLit w) : tplLit w := by
  intro c hc
  have := h c hc
  unfold phChar at this
  push_neg at this
  exact ⟨this.1, this.2.1⟩

/-- Splitting at the first NUL: if two NUL-free lists followed by a NUL agree,
they are equal. -/
theorem nulSplit : ∀ (d1 d2 x y : List Char), (∀ c ∈ d1, c ≠ '\x00') →
    (∀ c ∈ d2, c ≠ '\x00') → d1 ++ '\x00' :: x = d2 ++ '\x00' :: y →
    d1 = d2 ∧ x = y
  | [], [], x, y, _, _, h => by simpa using h
  | [], c :: d2, x, y, _, h2, h => by
    simp only [List.nil_append, List.cons_append, List.cons.injEq] at h
    exact absurd h.1.symm (h2 c (by simp))
  | c :: d1, [], x, y, h1, _, h => by
    simp only [List.nil_append, List.cons_append, List.cons.injEq] at h
    exact absurd h.1 (h1 c (by simp))
  | c1 :: d1, c2 :: d2, x, y, h1, h2, h => by
    simp only [List.cons_append, List.cons.injEq] at h
    obtain ⟨rfl, h⟩ := h
    obtain ⟨rfl, rfl⟩ := nulSplit d1 d2 x y (fun c hc => h1 c (by simp [hc]))
      (fun c hc => h2 c (by simp [hc])) h
    exact ⟨rfl, rfl⟩

/-- Distinct placeholders differ, even followed by arbitrary text. -/
theorem placeholderTok_neq {i j : Nat} (hne : i ≠ j) (x y : List Char) :
    placeholderTok i ++ x ≠ placeholderTok j ++ y := by
  intro h
  simp only [placeholderTok, List.cons_append, List.append_assoc,
    List.cons.injEq, true_and] at h
  obtain ⟨hd, -⟩ := nulSplit (natDecimal i) (natDecimal j) x y
    (fun c hc => isDigit_ne_nul (natDecimal_digits i c hc))
    (fun c hc => isDigit_ne_nul (natDecimal_digits j c hc)) (by simpa using h)
  exact hne (natDecimal_inj hd)

theorem renderT_append : ∀ t1 t2 : List Tok,
    renderT (t1 ++ t2) = renderT t1 ++ renderT t2
  | [], _ => rfl
  | .chunk w :: r, t2 => by simp [renderT, renderT_append r t2]
  | .ph i :: r, t2 => by simp [renderT, renderT_append r t2]

theorem phSeq_append : ∀ t1 t2 : List Tok, phSeq (t1 ++ t2) = phSeq t1 ++ phSeq t2
  | [], _ => rfl
  | .chunk _ :: r, t2 => by simp [phSeq, phSeq_append r t2]
  | .ph i :: r, t2 => by simp [phSeq, phSeq_append r t2]

theorem phSeq_nil_of_patLit : ∀ toks, patLit (renderT toks) → phSeq toks = []
  | [] => fun _ => rfl
  | .chunk w :: r => fun h => by
    simp only [phSeq]
    exact phSeq_nil_of_patLit r fun c hc => h c (by simp [renderT, hc])
  | .ph i :: r => fun h =>
    absurd (Or.inl rfl : phChar '\x00')
      (h '\x00' (by simp [renderT, placeholderTok]))

/-- Cutting rendered text at a position whose preceding character is not a
placeholder character splits the token list itself. -/
theorem cut_tokens : ∀ (toks : List Tok) (u v : List Char),
    renderT toks = u ++ v → (∀ t ∈ toks, TokOK t) →
    (∀ cl, u.getLast? = some cl → ¬ phChar cl) →
    ∃ tU tV, u = renderT tU ∧ v = renderT tV ∧ (∀ t ∈ tU, TokOK t) ∧
      (∀ t ∈ tV, TokOK t) ∧ phSeq toks = phSeq tU ++ phSeq tV
  | [], u, v, h, _, _ => by
    rw [renderT] at h
    obtain ⟨rfl, rfl⟩ := List.append_eq_nil.mp h.symm
    exact ⟨[], [], rfl, rfl, by simp, by simp, rfl⟩
  | .chunk w :: rest, u, v, h, hok, hlast => by
    simp only [renderT] at h
    rcases List.append_eq_append_iff.mp h with ⟨a', rfl, hR⟩ | ⟨c', rfl, rfl⟩
    · obtain ⟨tU, tV, ha', hv, hU, hV, hseq⟩ := cut_tokens rest a' v hR
        (fun t ht => hok t (by simp [ht]))
        (fun cl hcl => hlast cl (by
          rw [List.getLast?_append_of_ne_nil w (by rintro rfl; simp at hcl)]
          exact hcl))
      refine ⟨.chunk w :: tU, tV, ?_, hv, ?_, hV, ?_⟩
      · simp [renderT, ha']
      · intro t ht
        rcases List.mem_cons.mp ht with rfl | ht
        · exact hok _ (by simp)
        · exact hU t ht
      · simpa [phSeq] using hseq
    · refine ⟨[.chunk u], .chunk c' :: rest, by simp [renderT], by simp [renderT],
        ?_, ?_, ?_⟩
      · intro t ht
        rcases List.mem_singleton.mp ht with rfl
        exact fun c hc => hok (.chunk (u ++ c')) (by simp) c (by simp [hc])
      · intro t ht
        rcases List.mem_cons.mp ht with rfl | ht
        · exact fun c hc => hok (.chunk (u ++ c')) (by simp) c (by simp [hc])
        · exact hok t (by simp [ht])
      · simp [phSeq]
  | .ph i :: rest, u, v, h, hok, hlast => by
    simp only [renderT] at h
    rcases List.append_eq_append_iff.mp h with ⟨a', rfl, hR⟩ | ⟨c', hph, rfl⟩
    · obtain ⟨tU, tV, ha', hv, hU, hV, hseq⟩ := cut_tokens rest a' v hR
        (fun t ht => hok t (by simp [ht]))
        (fun cl hcl => hlast cl (by
          rw [List.getLast?_append_of_ne_nil _ (by rintro rfl; simp at hcl)]
          exact hcl))
      refine ⟨.ph i :: tU, tV, ?_, hv, ?_, hV, ?_⟩
      · simp [renderT, ha']
      · intro t ht
        rcases List.mem_cons.mp ht with rfl | ht
        · trivial
        · exact hU t ht
      · simpa [phSeq] using hseq
    · cases u with
      | nil =>
        refine ⟨[], .ph i :: rest, rfl, ?_, by simp, hok, by simp [phSeq]⟩
        simp only [List.nil_append] at hph
        simp [renderT, ← hph]
      | cons cu u' =>
        exfalso
        obtain ⟨cl, hcl⟩ : ∃ cl, (cu :: u').getLast? = some cl := by
          cases hu : (cu :: u').getLast? with
          | none => simp at hu
          | some cl => exact ⟨cl, rfl⟩
        refine hlast cl hcl (phChar_placeholderTok i cl ?_)
        rw [hph]
        exact List.mem_append_left _ (List.mem_of_getLast?_eq_some hcl)

/-- A segment of rendered text flanked by pattern literals retokenizes and
carries all the placeholders. -/
theorem slice_tokens : ∀ (toks : List Tok) (a g b : List Char),
    renderT toks = a ++ (g ++ b) → (∀ t ∈ toks, TokOK t) → patLit a → patLit b →
    ∃ tG, g = renderT tG ∧ (∀ t ∈ tG, TokOK t) ∧ phSeq tG = phSeq toks
  | [], a, g, b, h, _, _, _ => by
    rw [renderT] at h
    obtain ⟨rfl, h2⟩ := List.append_eq_nil.mp h.symm
    obtain ⟨rfl, rfl⟩ := List.append_eq_nil.mp h2
    exact ⟨[], rfl, by simp, rfl⟩
  | .chunk w :: rest, a, g, b, h, hok, ha, hb => by
    simp only [renderT] at h
    rcases List.append_eq_append_iff.mp h with ⟨a', rfl, hR⟩ | ⟨c', hw, hgb⟩
    · obtain ⟨tG, hg, hG, hseq⟩ := slice_tokens rest a' g b hR
        (fun t ht => hok t (by simp [ht]))
        (fun c hc => ha c (by simp [hc])) hb
      exact ⟨tG, hg, hG, by simpa [phSeq] using hseq⟩
    · rcases List.append_eq_append_iff.mp hgb.symm with ⟨a2, hg, hb'⟩ | ⟨c2, hc', hR⟩
      · -- g = c' ++ a2 extends past the chunk
        obtain ⟨tG2, hg2, hG2, hseq2⟩ := slice_tokens rest [] a2 b
          (by simpa using hb') (fun t ht => hok t (by simp [ht]))
          (by simp [patLit]) hb
        refine ⟨.chunk c' :: tG2, by simp [renderT, hg, hg2], ?_, ?_⟩
        · intro t ht
          rcases List.mem_cons.mp ht with rfl | ht
          · exact fun c hc => hok (.chunk w) (by simp) c (by simp [hw, hc])
          · exact hG2 t ht
        · simpa [phSeq] using hseq2
      · -- g lies inside the chunk; the rest of the tokens renders into b
        refine ⟨[.chunk g], by simp [renderT], ?_, ?_⟩
        · intro t ht
          rcases List.mem_singleton.mp ht with rfl
          exact fun c hc => hok (.chunk w) (by simp) c
            (by simp [hw, hc', hc])
        · have : phSeq rest = [] := phSeq_nil_of_patLit rest
            (fun c hc => hb c (by simp [hR, hc]))
          simp [phSeq, this]
  | .ph i :: rest, a, g, b, h, hok, ha, hb => by
    simp only [renderT] at h
    rcases List.append_eq_append_iff.mp h with ⟨a', ha', hR⟩ | ⟨c', hph, hgb⟩
    · exact absurd (ha '\x00' (by simp [ha', placeholderTok]) (Or.inl rfl)) not_false
    · have haz : a = [] := by
        cases a with
        | nil => rfl
        | cons ca a' =>
          exact absurd (ha ca (by simp) (phChar_placeholderTok i ca
            (by rw [hph]; simp))) not_false
      subst haz
      simp only [List.nil_append] at hph hgb
      subst hph
      rcases List.append_eq_append_iff.mp hgb.symm with ⟨a2, hg, hb'⟩ | ⟨c2, hph2, hR⟩
      · -- g = placeholderTok i ++ a2
        obtain ⟨tG2, hg2, hG2, hseq2⟩ := slice_tokens rest [] a2 b
          (by simpa using hb') (fun t ht => hok t (by simp [ht]))
          (by simp [patLit]) hb
        refine ⟨.ph i :: tG2, by simp [renderT, hg, hg2], ?_, ?_⟩
        · intro t ht
          rcases List.mem_cons.mp ht with rfl | ht
          · trivial
          · exact hG2 t ht
        · simp [phSeq, hseq2]
      · -- the placeholder = g ++ c2 : g is a prefix of the placeholder
        cases c2 with
        | nil =>
          simp only [List.append_nil] at hph2
          refine ⟨[.ph i], by simp [renderT, hph2], by simp [TokOK], ?_⟩
          have : phSeq rest = [] := phSeq_nil_of_patLit rest
            (fun c hc => hb c (by simp [hR, hc]))
          simp [phSeq, this]
        | cons cc c2' =>
          exact absurd (hb cc (by simp [hR]) (phChar_placeholderTok i cc
            (by rw [hph2]; simp))) not_false

theorem renderT_head_cases : ∀ (toks : List Tok), (∀ t ∈ toks, TokOK t) →
    renderT toks = [] ∨
    (∃ c w rest, renderT toks = c :: (w ++ renderT rest) ∧ tplLit (c :: w) ∧
      (∀ t ∈ rest, TokOK t) ∧ phSeq toks = phSeq rest) ∨
    (∃ i rest, renderT toks = placeholderTok i ++ renderT rest ∧
      (∀ t ∈ rest, TokOK t) ∧ phSeq toks = i :: phSeq rest)
  | [], _ => Or.inl rfl
  | .chunk [] :: rest, hok => by
    have h := renderT_head_cases rest (fun t ht => hok t (by simp [ht]))
    simpa [renderT, phSeq] using h
  | .chunk (c :: w) :: rest, hok => by
    refine Or.inr (Or.inl ⟨c, w, rest, by simp [renderT], ?_,
      fun t ht => hok t (by simp [ht]), by simp [phSeq]⟩)
    exact fun d hd => hok (.chunk (c :: w)) (by simp) d hd
  | .ph i :: rest, hok =>
    Or.inr (Or.inr ⟨i, rest, by simp [renderT],
      fun t ht => hok t (by simp [ht]), by simp [phSeq]⟩)

/-- `subGo` copies a run of placeholder characters verbatim: no matcher fires
on them. -/
theorem subGo_skip (m : SubMatcher) (hm : MatcherOK m) :
    ∀ (p : List Char) (last : Char), (∀ c ∈ p ++ [last], phChar c) →
    ∀ (fuel : Nat) (prev : Option Char) (rest : List Char),
      subGo m ((p ++ [last]).length + fuel) prev ((p ++ [last]) ++ rest) =
        (p ++ [last]) ++ subGo m fuel (some last) rest
  | [], last, hp, fuel, prev, rest => by
    have hnone := hm.1 prev last rest (hp last (by simp))
    simp only [List.nil_append, List.length_singleton, List.singleton_append,
      Nat.add_comm 1 fuel]
    simp [subGo, hnone]
  | c :: p', last, hp, fuel, prev, rest => by
    have hnone := hm.1 prev c ((p' ++ [last]) ++ rest) (hp c (by simp))
    simp only [List.append_assoc, List.singleton_append] at hnone
    have ih := subGo_skip m hm p' last (fun d hd => hp d (by simp at hd ⊢; tauto))
      fuel (some c) rest
    have hlen : ((c :: p') ++ [last]).length + fuel =
        (p' ++ [last]).length + fuel + 1 := by
      simp
      omega
    calc subGo m (((c :: p') ++ [last]).length + fuel) prev
            (((c :: p') ++ [last]) ++ rest)
        = subGo m ((p' ++ [last]).length + fuel + 1) prev
            (c :: ((p' ++ [last]) ++ rest)) := by rw [hlen]; rfl
      _ = c :: subGo m ((p' ++ [last]).length + fuel) (some c)
            ((p' ++ [last]) ++ rest) := by simp [subGo, hnone]
      _ = c :: ((p' ++ [last]) ++ subGo m fuel (some last) rest) := by rw [ih]
      _ = ((c :: p') ++ [last]) ++ subGo m fuel (some last) rest := by simp

theorem lastSafe_append (a g b : List Char) (hb : patLit b) (hbne : b ≠ []) :
    ∀ cl, (a ++ (g ++ b)).getLast? = some cl → ¬ phChar cl := by
  intro cl hcl
  rw [List.getLast?_append_of_ne_nil a (by simp [hbne]),
    List.getLast?_append_of_ne_nil g hbne] at hcl
  exact hb cl (List.mem_of_getLast?_eq_some hcl)

/-- The scan loop of a well-behaved substitution stage maps rendered token
lists to rendered token lists, keeping chunks clean and permuting the
placeholder indexes. -/
theorem subGo_sim (m : SubMatcher) (hm : MatcherOK m) :
    ∀ (N : Nat) (toks : List Tok) (prev : Option Char) (fuel : Nat),
      (renderT toks).length ≤ N → (∀ t ∈ toks, TokOK t) →
      (renderT toks).length ≤ fuel →
      ∃ toks', subGo m fuel prev (renderT toks) = renderT toks' ∧
        (∀ t ∈ toks', TokOK t) ∧ (phSeq toks').Perm (phSeq toks)
  | 0, toks, prev, fuel, hN, hok, _ => by
    have hz : renderT toks = [] := List.eq_nil_of_length_eq_zero (Nat.le_zero.mp hN)
    refine ⟨toks, ?_, hok, List.Perm.refl _⟩
    rw [hz]
    cases fuel <;> rfl
  | N + 1, toks, prev, fuel, hN, hok, hfuel => by
    rcases renderT_head_cases toks hok with hz | ⟨c, w, rest, hr, hcw, hrest, hseq⟩ |
      ⟨i, rest, hr, hrest, hseq⟩
    · refine ⟨toks, ?_, hok, List.Perm.refl _⟩
      rw [hz]
      cases fuel <;> rfl
    · -- chunk head
      rw [hr] at hN hfuel ⊢
      obtain ⟨fuel', rfl⟩ : ∃ f', fuel = f' + 1 := by
        cases fuel with
        | zero => simp at hfuel
        | succ f => exact ⟨f, rfl⟩
      have hok1 : ∀ t ∈ (Tok.chunk (c :: w) :: rest), TokOK t := by
        intro t ht
        rcases List.mem_cons.mp ht with rfl | ht
        · exact hcw
        · exact hrest t ht
      cases hmatch : m prev (c :: (w ++ renderT rest)) with
      | none =>
        obtain ⟨toks', heq, hok', hperm⟩ := subGo_sim m hm N (.chunk w :: rest)
          (some c) fuel'
          (by simp only [renderT]; simp only [List.length_cons] at hN; omega)
          (by intro t ht
              rcases List.mem_cons.mp ht with rfl | ht
              · exact fun d hd => hcw d (by simp [hd])
              · exact hrest t ht)
          (by simp only [renderT]; simp only [List.length_cons] at hfuel; omega)
        have heq' : subGo m fuel' (some c) (w ++ renderT rest) = renderT toks' := heq
        refine ⟨.chunk [c] :: toks', ?_, ?_, ?_⟩
        · rw [show subGo m (fuel' + 1) prev (c :: (w ++ renderT rest)) =
              c :: subGo m fuel' (some c) (w ++ renderT rest) by simp [subGo, hmatch]]
          rw [heq']
          simp [renderT]
        · intro t ht
          rcases List.mem_cons.mp ht with rfl | ht
          · intro d hd
            rcases List.mem_singleton.mp hd with rfl
            exact hcw d (by simp)
          · exact hok' t ht
        · rw [hseq]
          have hp : phSeq (Tok.chunk w :: rest) = phSeq rest := by simp [phSeq]
          simpa [phSeq, hp] using hperm
      | some pr =>
        obtain ⟨r, k⟩ := pr
        obtain ⟨hk1, hk2, hshape⟩ := hm.2 prev _ r k hmatch
        have hs1 : renderT (Tok.chunk (c :: w) :: rest) = c :: (w ++ renderT rest) := by
          simp [renderT]
        have hstep : subGo m (fuel' + 1) prev (c :: (w ++ renderT rest)) =
            r ++ subGo m fuel' ((c :: (w ++ renderT rest)).get? (k - 1))
              ((c :: (w ++ renderT rest)).drop k) := by
          simp [subGo, hmatch]
        have hlens : (c :: (w ++ renderT rest)).length ≤ N + 1 := hN
        have hlenf : (c :: (w ++ renderT rest)).length ≤ fuel' + 1 := hfuel
        rcases hshape with ⟨a, g, b, t1, t2, ha, hb, hane, hbne, ht1, ht2, hcons, hrepl⟩ |
          ⟨a, g1, b, g2, cc, t1, t2, t3, ha, hb, hc, hane, hbne, hcne, ht1, ht2, ht3,
            hcons, hrepl⟩
        · -- one-group shape
          have hcut : renderT (Tok.chunk (c :: w) :: rest) =
              (a ++ (g ++ b)) ++ (c :: (w ++ renderT rest)).drop k := by
            rw [hs1, ← hcons]
            exact (List.take_append_drop k _).symm
          obtain ⟨tC, tR, hu, hv, hC, hR, hseq1⟩ := cut_tokens _ (a ++ (g ++ b))
            ((c :: (w ++ renderT rest)).drop k) hcut hok1 (lastSafe_append a g b hb hbne)
          obtain ⟨tG, hg, hG, hseqG⟩ := slice_tokens tC a g b hu.symm hC ha hb
          obtain ⟨tR', heqR, hokR, hpermR⟩ := subGo_sim m hm N tR
            ((c :: (w ++ renderT rest)).get? (k - 1)) fuel'
            (by rw [← hv]; simp only [List.length_drop]; omega)
            hR
            (by rw [← hv]; simp only [List.length_drop]; omega)
          refine ⟨.chunk t1 :: (tG ++ (.chunk t2 :: tR')), ?_, ?_, ?_⟩
          · rw [hstep, hv, heqR, hrepl]
            simp [renderT, renderT_append, hg, List.append_assoc]
          · intro t ht
            rcases List.mem_cons.mp ht with rfl | ht
            · exact ht1
            · rcases List.mem_append.mp ht with ht | ht
              · exact hG t ht
              · rcases List.mem_cons.mp ht with rfl | ht
                · exact ht2
                · exact hokR t ht
          · have hL : phSeq (Tok.chunk t1 :: (tG ++ (Tok.chunk t2 :: tR'))) =
                phSeq tG ++ phSeq tR' := by
              simp [phSeq, phSeq_append]
            have hrest' : phSeq rest = phSeq tC ++ phSeq tR := by
              simpa [phSeq] using hseq1
            rw [hL, hseq, hrest', hseqG]
            exact List.Perm.append_left _ hpermR
        · -- two-group shape
          have hcut : renderT (Tok.chunk (c :: w) :: rest) =
              (a ++ (g1 ++ (b ++ (g2 ++ cc)))) ++ (c :: (w ++ renderT rest)).drop k := by
            rw [hs1, ← hcons]
            exact (List.take_append_drop k _).symm
          have hlast : ∀ cl, (a ++ (g1 ++ (b ++ (g2 ++ cc)))).getLast? = some cl →
              ¬ phChar cl := by
            intro cl hcl
            rw [List.getLast?_append_of_ne_nil a (by simp [hcne]),
              List.getLast?_append_of_ne_nil g1 (by simp [hcne]),
              List.getLast?_append_of_ne_nil b (by simp [hcne]),
              List.getLast?_append_of_ne_nil g2 hcne] at hcl
            exact hc cl (List.mem_of_getLast?_eq_some hcl)
          obtain ⟨tC, tR, hu, hv, hC, hR, hseq1⟩ := cut_tokens _ _ _ hcut hok1 hlast
          have hu2 : renderT tC = (a ++ (g1 ++ b)) ++ (g2 ++ cc) := by
            rw [← hu]
            simp [List.append_assoc]
          obtain ⟨tC1, tC2, hu1, hv1, hC1, hC2, hseq2⟩ := cut_tokens tC (a ++ (g1 ++ b))
            (g2 ++ cc) hu2 hC (lastSafe_append a g1 b hb hbne)
          obtain ⟨tG1, hg1, hG1, hseqG1⟩ := slice_tokens tC1 a g1 b hu1.symm hC1 ha hb
          obtain ⟨tG2, hg2, hG2, hseqG2⟩ := slice_tokens tC2 [] g2 cc
            (by simpa using hv1.symm) hC2 (by simp [patLit]) hc
          obtain ⟨tR', heqR, hokR, hpermR⟩ := subGo_sim m hm N tR
            ((c :: (w ++ renderT rest)).get? (k - 1)) fuel'
            (by rw [← hv]; simp only [List.length_drop]; omega)
            hR
            (by rw [← hv]; simp only [List.length_drop]; omega)
          refine ⟨.chunk t1 :: (tG2 ++ (.chunk t2 :: (tG1 ++ (.chunk t3 :: tR')))),
            ?_, ?_, ?_⟩
          · rw [hstep, hv, heqR, hrepl]
            simp [renderT, renderT_append, hg1, hg2, List.append_assoc]
          · intro t ht
            rcases List.mem_cons.mp ht with rfl | ht
            · exact ht1
            · rcases List.mem_append.mp ht with ht | ht
              · exact hG2 t ht
              · rcases List.mem_cons.mp ht with rfl | ht
                · exact ht2
                · rcases List.mem_append.mp ht with ht | ht
                  · exact hG1 t ht
                  · rcases List.mem_cons.mp ht with rfl | ht
                    · exact ht3
                    · exact hokR t ht
          · have hL : phSeq (Tok.chunk t1 :: (tG2 ++ (Tok.chunk t2 ::
                (tG1 ++ (Tok.chunk t3 :: tR'))))) =
                phSeq tG2 ++ (phSeq tG1 ++ phSeq tR') := by
              simp [phSeq, phSeq_append]
            have hrest' : phSeq rest = phSeq tC ++ phSeq tR := by
              simpa [phSeq] using hseq1
            rw [hL, hseq, hrest', hseq2, hseqG1, hseqG2, List.append_assoc]
            exact (List.Perm.append_left _ (List.Perm.append_left _ hpermR)).trans
              (List.perm_append_comm_assoc _ _ _)
    · -- placeholder head
      rw [hr] at hN hfuel ⊢
      have hph : placeholderTok i = ('\x00' :: 'C' :: natDecimal i) ++ ['\x00'] := by
        simp [placeholderTok]
      have hlen1 : 1 ≤ (placeholderTok i).length := by simp [placeholderTok]
      obtain ⟨fuel'', rfl⟩ : ∃ f'', fuel = (placeholderTok i).length + f'' := by
        refine ⟨fuel - (placeholderTok i).length, ?_⟩
        simp only [List.length_append] at hfuel
        omega
      have hskip := subGo_skip m hm ('\x00' :: 'C' :: natDecimal i) '\x00'
        (by rw [← hph]; exact phChar_placeholderTok i) fuel'' prev (renderT rest)
      obtain ⟨rest', heq, hok', hperm⟩ := subGo_sim m hm N rest (some '\x00') fuel''
        (by simp only [List.length_append] at hN; omega)
        hrest
        (by simp only [List.length_append] at hfuel; omega)
      refine ⟨.ph i :: rest', ?_, ?_, ?_⟩
      · rw [hph, hskip, heq]
        simp [renderT, hph]
      · intro t ht
        rcases List.mem_cons.mp ht with rfl | ht
        · trivial
        · exact hok' t ht
      · rw [hseq]
        simpa [phSeq] using hperm.cons i

theorem subAll_sim (m : SubMatcher) (hm : MatcherOK m) (toks : List Tok)
    (hok : ∀ t ∈ toks, TokOK t) :
    ∃ toks', subAll m (renderT toks) = renderT toks' ∧ (∀ t ∈ toks', TokOK t) ∧
      (phSeq toks').Perm (phSeq toks) :=
  subGo_sim m hm (renderT toks).length toks none ((renderT toks).length + 1)
    le_rfl hok (by omega)

theorem scanFor_spec : ∀ (delim s ct after : List Char),
    scanFor delim s = some (ct, after) → s = ct ++ (delim ++ after)
  | delim, [], ct, after, h => by simp [scanFor] at h
  | delim, c :: cs, ct, after, h => by
    rw [scanFor] at h
    split at h
    · rename_i hpre
      cases h
      obtain ⟨t, ht⟩ := List.isPrefixOf_iff_prefix.mp hpre
      have hdrop : (c :: cs).drop delim.length = t := by
        rw [← ht, List.drop_left]
      rw [hdrop, List.nil_append, ht]
    · split at h
      · exact absurd h (by simp)
      · cases hrec : scanFor delim cs with
        | none => rw [hrec] at h; simp at h
        | some pr =>
          obtain ⟨ct', after'⟩ := pr
          rw [hrec] at h
          have h' : (some (c :: ct', after') : Option (List Char × List Char)) =
              some (ct, after) := h
          obtain ⟨h1, h2⟩ : c :: ct' = ct ∧ after' = after := by simpa using h'
          subst h1
          subst h2
          have hcs := scanFor_spec delim cs ct' after' hrec
          simp [hcs]

/-- A matcher pattern starting with a non-placeholder character fails at a
placeholder character. -/
theorem isPrefixOf_false_of_head {d0 c : Char} {d' cs : List Char}
    (hne : d0 ≠ c) : (d0 :: d').isPrefixOf (c :: cs) = false := by
  simp [List.isPrefixOf_cons₂, hne]

theorem matcherOK_pair (delim openT closeT : List Char)
    (hd : patLit delim) (hdne : delim ≠ [])
    (ho : tplLit openT) (hcl : tplLit closeT) :
    MatcherOK (pairMatcher delim openT closeT) := by
  obtain ⟨d0, d', rfl⟩ : ∃ d0 d', delim = d0 :: d' := by
    cases delim with
    | nil => exact absurd rfl hdne
    | cons d0 d' => exact ⟨d0, d', rfl⟩
  constructor
  · intro prev c cs hphc
    unfold pairMatcher
    rw [if_neg]
    intro hpre
    have hne : d0 ≠ c := fun h => hd d0 (by simp) (by rw [h]; exact hphc)
    rw [isPrefixOf_false_of_head hne] at hpre
    exact Bool.noConfusion hpre
  · intro prev s r k h
    by_cases hpre : (d0 :: d').isPrefixOf s = true
    · obtain ⟨t, ht⟩ := List.isPrefixOf_iff_prefix.mp hpre
      have hdrop : s.drop (d0 :: d').length = t := by
        rw [← ht, List.drop_left]
      cases t with
      | nil =>
        unfold pairMatcher at h
        rw [if_pos hpre, hdrop] at h
        exact absurd h (by simp)
      | cons c0 rest0 =>
        have heq2 : pairMatcher (d0 :: d') openT closeT prev s =
            (if c0 = '\n' then none
             else
               match scanFor (d0 :: d') rest0 with
               | some (ct, _) =>
                 some (openT ++ (c0 :: ct) ++ closeT,
                   (d0 :: d').length + (c0 :: ct).length + (d0 :: d').length)
               | none => none) := by
          unfold pairMatcher
          rw [if_pos hpre, hdrop]
        rw [heq2] at h
        split at h
        · exact absurd h (by simp)
        · cases hscan : scanFor (d0 :: d') rest0 with
          | none => rw [hscan] at h; exact absurd h (by simp)
          | some pr =>
            obtain ⟨ct, after⟩ := pr
            rw [hscan] at h
            simp only [Option.some.injEq, Prod.mk.injEq] at h
            obtain ⟨rfl, rfl⟩ := h
            have hrest0 := scanFor_spec _ _ _ _ hscan
            have hs : s = ((d0 :: d') ++ ((c0 :: ct) ++ (d0 :: d'))) ++ after := by
              rw [← ht, hrest0]
              simp
            have hklen : (d0 :: d').length + (c0 :: ct).length + (d0 :: d').length =
                ((d0 :: d') ++ ((c0 :: ct) ++ (d0 :: d'))).length := by
              simp
              omega
            refine ⟨by simp; omega, ?_, ?_⟩
            · rw [hs, hklen]
              simp
            · rw [hs, hklen, List.take_left]
              left
              exact ⟨d0 :: d', c0 :: ct, d0 :: d', openT, closeT, hd, hd,
                by simp, by simp, ho, hcl, rfl, by simp⟩
    · unfold pairMatcher at h
      rw [if_neg hpre] at h
      exact absurd h (by simp)


theorem italicGo_spec : ∀ (pc : Char) (s ct rest : List Char),
    italicGo pc s = some (ct, rest) → s = ct ++ ('*' :: rest)
  | pc, [], ct, rest, h => by simp [italicGo] at h
  | pc, c :: cs, ct, rest, h => by
    rw [italicGo] at h
    split at h
    · rename_i hcond
      simp only [Option.some.injEq, Prod.mk.injEq] at h
      obtain ⟨h1, h2⟩ := h
      obtain ⟨hc, -, -⟩ := hcond
      subst hc
      rw [← h1, ← h2]
      rfl
    · split at h
      · exact absurd h (by simp)
      · cases hrec : italicGo c cs with
        | none => rw [hrec] at h; simp at h
        | some pr =>
          obtain ⟨ct', rest'⟩ := pr
          rw [hrec] at h
          have h' : (some (c :: ct', rest') : Option (List Char × List Char)) =
              some (ct, rest) := h
          simp only [Option.some.injEq, Prod.mk.injEq] at h'
          obtain ⟨h1, h2⟩ := h'
          subst h1
          subst h2
          have hcs := italicGo_spec c cs ct' rest' hrec
          simp [hcs]

theorem matcherOK_italic : MatcherOK italicMatcher := by
  constructor
  · intro prev c cs hphc
    have hne : c ≠ '*' := by
      rintro rfl
      exact (by decide : ¬ phChar '*') hphc
    unfold italicMatcher
    split
    · rename_i heq
      injection heq with hc _
      exact absurd hc hne
    · rfl
  · intro prev s r k h
    unfold italicMatcher at h
    split at h
    · rename_i c0 rest0
      split at h
      · exact absurd h (by simp)
      · split at h
        · exact absurd h (by simp)
        · split at h
          · exact absurd h (by simp)
          · cases hscan : italicGo c0 rest0 with
            | none => rw [hscan] at h; exact absurd h (by simp)
            | some pr =>
              obtain ⟨ct, rest⟩ := pr
              rw [hscan] at h
              simp only [Option.some.injEq, Prod.mk.injEq] at h
              obtain ⟨rfl, rfl⟩ := h
              have hrest0 := italicGo_spec _ _ _ _ hscan
              have hs : '*' :: c0 :: rest0 =
                  (['*'] ++ ((c0 :: ct) ++ ['*'])) ++ rest := by
                rw [hrest0]
                simp
              have hklen : 1 + (c0 :: ct).length + 1 =
                  (['*'] ++ ((c0 :: ct) ++ ['*'])).length := by
                simp
                omega
              refine ⟨by omega, ?_, ?_⟩
              · rw [hs, hklen]
                simp
              · rw [hs, hklen, List.take_left]
                left
                exact ⟨['*'], c0 :: ct, ['*'], "<em>".data, "</em>".data,
                  by unfold patLit; decide, by unfold patLit; decide,
                  by simp, by simp,
                  by unfold tplLit; decide, by unfold tplLit; decide,
                  rfl, by simp⟩
    · exact absurd h (by simp)

theorem matcherOK_image : MatcherOK imageMatcher := by
  constructor
  · intro prev c cs hphc
    have hne : c ≠ '!' := by
      rintro rfl
      exact (by decide : ¬ phChar '!') hphc
    unfold imageMatcher
    split
    all_goals first
      | rfl
      | (rename_i heq
         injection heq with hc hcs
         exact absurd hc hne)
      | exact absurd rfl hne
  · intro prev s r k h
    simp only [imageMatcher] at h
    split at h
    · rename_i rest
      generalize hA : rest.takeWhile (fun c => c ≠ ']') = A at h
      obtain ⟨t, ht⟩ := List.takeWhile_prefix (l := rest) (p := fun c => c ≠ ']')
      rw [hA] at ht
      have hdrop : rest.drop A.length = t := by
        rw [← ht, List.drop_left]
      rw [hdrop] at h
      split at h
      · rename_i rest2
        generalize hU : rest2.takeWhile (fun c => c ≠ ')') = U at h
        split at h
        · exact absurd h (by simp)
        · obtain ⟨t2, ht2⟩ := List.takeWhile_prefix (l := rest2)
            (p := fun c => c ≠ ')')
          rw [hU] at ht2
          have hdrop2 : rest2.drop U.length = t2 := by
            rw [← ht2, List.drop_left]
          rw [hdrop2] at h
          split at h
          · rename_i rem
            simp only [Option.some.injEq, Prod.mk.injEq] at h
            obtain ⟨rfl, rfl⟩ := h
            have hs : '!' :: '[' :: rest =
                (['!', '['] ++ (A ++ ([']', '('] ++ (U ++ [')'])))) ++ rem := by
              rw [← ht, ← ht2]
              simp
            have hklen : 2 + A.length + 2 + U.length + 1 =
                (['!', '['] ++ (A ++ ([']', '('] ++ (U ++ [')'])))).length := by
              simp
              omega
            refine ⟨by omega, ?_, ?_⟩
            · rw [hs, hklen]
              simp
            · rw [hs, hklen, List.take_left]
              right
              exact ⟨['!', '['], A, [']', '('], U, [')'],
                "<img src=\"".data, "\" alt=\"".data,
                "\" style=\"max-width:360px;border-radius:6px\">".data,
                by unfold patLit; decide, by unfold patLit; decide,
                by unfold patLit; decide, by simp, by simp, by simp,
                by unfold tplLit; decide, by unfold tplLit; decide,
                by unfold tplLit; decide, rfl, by simp⟩
          · exact absurd h (by simp)
      · exact absurd h (by simp)
    · exact absurd h (by simp)

theorem matcherOK_link : MatcherOK linkMatcher := by
  constructor
  · intro prev c cs hphc
    have hne : c ≠ '[' := by
      rintro rfl
      exact (by decide : ¬ phChar '[') hphc
    unfold linkMatcher
    split
    all_goals first
      | rfl
      | (rename_i heq
         injection heq with hc hcs
         exact absurd hc hne)
      | exact absurd rfl hne
  · intro prev s r k h
    simp only [linkMatcher] at h
    split at h
    · rename_i rest
      generalize hA : rest.takeWhile (fun c => c ≠ ']') = A at h
      split at h
      · exact absurd h (by simp)
      · obtain ⟨t, ht⟩ := List.takeWhile_prefix (l := rest) (p := fun c => c ≠ ']')
        rw [hA] at ht
        have hdrop : rest.drop A.length = t := by
          rw [← ht, List.drop_left]
        rw [hdrop] at h
        split at h
        · rename_i rest2
          generalize hU : rest2.takeWhile (fun c => c ≠ ')') = U at h
          split at h
          · exact absurd h (by simp)
          · obtain ⟨t2, ht2⟩ := List.takeWhile_prefix (l := rest2)
              (p := fun c => c ≠ ')')
            rw [hU] at ht2
            have hdrop2 : rest2.drop U.length = t2 := by
              rw [← ht2, List.drop_left]
            rw [hdrop2] at h
            split at h
            · rename_i rem
              simp only [Option.some.injEq, Prod.mk.injEq] at h
              obtain ⟨rfl, rfl⟩ := h
              have hs : '[' :: rest =
                  (['['] ++ (A ++ ([']', '('] ++ (U ++ [')'])))) ++ rem := by
                rw [← ht, ← ht2]
                simp
              have hklen : 1 + A.length + 2 + U.length + 1 =
                  (['['] ++ (A ++ ([']', '('] ++ (U ++ [')'])))).length := by
                simp
                omega
              refine ⟨by omega, ?_, ?_⟩
              · rw [hs, hklen]
                simp
              · rw [hs, hklen, List.take_left]
                right
                exact ⟨['['], A, [']', '('], U, [')'],
                  "<a href=\"".data, "\" target=\"_blank\">".data, "</a>".data,
                  by unfold patLit; decide, by unfold patLit; decide,
                  by unfold patLit; decide, by simp, by simp, by simp,
                  by unfold tplLit; decide, by unfold tplLit; decide,
                  by unfold tplLit; decide, rfl, by simp⟩
            · exact absurd h (by simp)
        · exact absurd h (by simp)
    · exact absurd h (by simp)

theorem extractGo_spec : ∀ (cs : List Char) (idx : Nat) (ob : Option (List Char)),
    tplLit cs → (∀ buf, ob = some buf → tplLit buf) →
    ∃ toks, (extractGo cs idx ob).2 = renderT toks ∧ (∀ t ∈ toks, TokOK t) ∧
      phSeq toks = List.range' idx (extractGo cs idx ob).1.length ∧
      ∀ sp ∈ (extractGo cs idx ob).1, tplLit sp
  | [], idx, none, _, _ => ⟨[], rfl, by simp, rfl, by simp [extractGo]⟩
  | [], idx, some buf, _, hbuf => by
    refine ⟨[.chunk ('`' :: buf.reverse)], by simp [extractGo, renderT], ?_, rfl,
      by simp [extractGo]⟩
    intro t ht
    simp only [List.mem_singleton] at ht
    subst ht
    intro d hd
    rcases List.mem_cons.mp hd with rfl | hd
    · exact ⟨by decide, by decide⟩
    · exact hbuf buf rfl d (List.mem_reverse.mp hd)
  | c :: cs, idx, none, hcl, _ => by
    have hclcs : tplLit cs := fun d hd => hcl d (by simp [hd])
    have hc := hcl c (by simp)
    by_cases hbq : c = '`'
    · subst hbq
      have heq : extractGo ('`' :: cs) idx none = extractGo cs idx (some []) := by
        rw [extractGo, if_pos rfl]
      rw [heq]
      exact extractGo_spec cs idx (some []) hclcs
        (fun b hb => by cases hb; exact fun d hd => absurd hd (List.not_mem_nil d))
    · have heq : extractGo (c :: cs) idx none =
          ((extractGo cs idx none).1, c :: (extractGo cs idx none).2) := by
        rw [extractGo, if_neg hbq]
      obtain ⟨toks, h1, h2, h3, h4⟩ := extractGo_spec cs idx none hclcs
        (fun b hb => nomatch hb)
      refine ⟨.chunk [c] :: toks, ?_, ?_, ?_, ?_⟩
      · rw [heq]
        simp [renderT, h1]
      · intro t ht
        rcases List.mem_cons.mp ht with rfl | ht
        · intro d hd
          simp only [List.mem_singleton] at hd
          subst hd
          exact hc
        · exact h2 t ht
      · rw [heq]
        simpa [phSeq] using h3
      · rw [heq]
        exact h4
  | c :: cs, idx, some buf, hcl, hbuf => by
    have hclcs : tplLit cs := fun d hd => hcl d (by simp [hd])
    have hc := hcl c (by simp)
    have hbuf' : tplLit buf := hbuf buf rfl
    by_cases hbq : c = '`'
    · subst hbq
      by_cases hbe : buf.isEmpty = true
      · have heq : extractGo ('`' :: cs) idx (some buf) =
            ((extractGo cs idx (some [])).1, '`' :: (extractGo cs idx (some [])).2) := by
          rw [extractGo, if_pos rfl, if_pos hbe]
        obtain ⟨toks, h1, h2, h3, h4⟩ := extractGo_spec cs idx (some []) hclcs
          (fun b hb => by cases hb; exact fun d hd => absurd hd (List.not_mem_nil d))
        refine ⟨.chunk ['`'] :: toks, ?_, ?_, ?_, ?_⟩
        · rw [heq]
          simp [renderT, h1]
        · intro t ht
          rcases List.mem_cons.mp ht with rfl | ht
          · intro d hd
            simp only [List.mem_singleton] at hd
            subst hd
            exact ⟨by decide, by decide⟩
          · exact h2 t ht
        · rw [heq]
          simpa [phSeq] using h3
        · rw [heq]
          exact h4
      · have heq : extractGo ('`' :: cs) idx (some buf) =
            (buf.reverse :: (extractGo cs (idx + 1) none).1,
              placeholderTok idx ++ (extractGo cs (idx + 1) none).2) := by
          rw [extractGo, if_pos rfl, if_neg hbe]
        obtain ⟨toks, h1, h2, h3, h4⟩ := extractGo_spec cs (idx + 1) none hclcs
          (fun b hb => nomatch hb)
        refine ⟨.ph idx :: toks, ?_, ?_, ?_, ?_⟩
        · rw [heq]
          simp [renderT, h1]
        · intro t ht
          rcases List.mem_cons.mp ht with rfl | ht
          · trivial
          · exact h2 t ht
        · rw [heq]
          simp only [phSeq, List.length_cons, List.range']
          rw [h3]
        · rw [heq]
          intro sp hsp
          rcases List.mem_cons.mp hsp with rfl | hsp
          · exact fun d hd => hbuf' d (List.mem_reverse.mp hd)
          · exact h4 sp hsp
    · have heq : extractGo (c :: cs) idx (some buf) =
          extractGo cs idx (some (c :: buf)) := by
        rw [extractGo, if_neg hbq]
      rw [heq]
      refine extractGo_spec cs idx (some (c :: buf)) hclcs ?_
      intro b hb
      cases hb
      intro d hd
      rcases List.mem_cons.mp hd with rfl | hd
      · exact hc
      · exact hbuf' d hd

theorem renderT_head_ne_C : ∀ (toks : List Tok), (∀ t ∈ toks, RTokOK t) →
    ∀ c, (renderT toks).head? = some c → c ≠ 'C'
  | [], _, c, hc => by simp [renderT] at hc
  | .chunk [] :: rest, hok, c, hc =>
    renderT_head_ne_C rest (fun t ht => hok t (by simp [ht])) c
      (by simpa [renderT] using hc)
  | .chunk (d :: w) :: rest, hok, c, hc => by
    have hd := (hok (.chunk (d :: w)) (by simp)).2
    have : d = c := by simpa [renderT] using hc
    subst this
    exact hd d rfl
  | .ph i :: rest, hok, c, hc => by
    have : '\x00' = c := by simpa [renderT, placeholderTok] using hc
    subst this
    decide

theorem replace_skip : ∀ (w p ins : List Char) (fuel : Nat) (rest : List Char),
    (∀ c ∈ w, c ≠ '\x00') → p.head? = some '\x00' →
    replaceAll p ins (fuel + w.length) (w ++ rest) = w ++ replaceAll p ins fuel rest
  | [], _, _, fuel, rest, _, _ => by simp
  | c :: w', p, ins, fuel, rest, hw, hp => by
    obtain ⟨p', rfl⟩ : ∃ p', p = '\x00' :: p' := by
      cases p with
      | nil => simp at hp
      | cons p0 p' =>
        have : p0 = '\x00' := by simpa using hp
        subst this
        exact ⟨p', rfl⟩
    have hc : c ≠ '\x00' := hw c (by simp)
    have hfe : fuel + (c :: w').length = (fuel + w'.length) + 1 := by
      simp [Nat.add_assoc]
    rw [hfe, List.cons_append, replaceAll]
    have hpre : ¬(('\x00' :: p').isPrefixOf (c :: (w' ++ rest)) = true) := by
      rw [isPrefixOf_false_of_head (Ne.symm hc)]
      simp
    rw [if_neg hpre]
    rw [replace_skip w' ('\x00' :: p') ins fuel rest (fun d hd => hw d (by simp [hd])) rfl]
    rfl

theorem replaceAll_match : ∀ (p ins : List Char) (fuel : Nat) (t : List Char), p ≠ [] →
    replaceAll p ins (fuel + 1) (p ++ t) = ins ++ replaceAll p ins fuel t := by
  intro p ins fuel t hp
  obtain ⟨c, p', rfl⟩ : ∃ c p', p = c :: p' := by
    cases p with
    | nil => exact absurd rfl hp
    | cons c p' => exact ⟨c, p', rfl⟩
  rw [List.cons_append, replaceAll]
  have hpre : (c :: p').isPrefixOf (c :: (p' ++ t)) = true :=
    List.isPrefixOf_iff_prefix.mpr ⟨t, by simp⟩
  rw [if_pos hpre]
  congr 1
  rw [← List.cons_append, List.drop_left]

theorem replace_sim (i : Nat) (ins : List Char) : ∀ (toks : List Tok) (fuel : Nat),
    (∀ t ∈ toks, RTokOK t) → (renderT toks).length ≤ fuel →
    replaceAll (placeholderTok i) ins fuel (renderT toks) =
      renderT (toks.map (replacePh i ins))
  | [], fuel, _, _ => by cases fuel <;> simp [renderT, replaceAll]
  | .chunk w :: rest, fuel, hok, hfuel => by
    have hokr : ∀ t ∈ rest, RTokOK t := fun t ht => hok t (by simp [ht])
    have hw : ∀ c ∈ w, c ≠ '\x00' := (hok (.chunk w) (by simp)).1
    have hren : renderT (Tok.chunk w :: rest) = w ++ renderT rest := rfl
    rw [hren] at hfuel ⊢
    have hlen2 : w.length + (renderT rest).length ≤ fuel := by simpa using hfuel
    obtain ⟨f', rfl⟩ : ∃ f', fuel = f' + w.length := ⟨fuel - w.length, by omega⟩
    rw [replace_skip w (placeholderTok i) ins f' (renderT rest) hw rfl]
    rw [replace_sim i ins rest f' hokr (by omega)]
    simp [renderT, replacePh]
  | .ph j :: rest, fuel, hok, hfuel => by
    have hokr : ∀ t ∈ rest, RTokOK t := fun t ht => hok t (by simp [ht])
    by_cases hij : j = i
    · subst hij
      have hren : renderT (Tok.ph j :: rest) = placeholderTok j ++ renderT rest := rfl
      rw [hren] at hfuel ⊢
      have hplen : (placeholderTok j).length = (natDecimal j).length + 3 := by
        simp [placeholderTok]
      have hfl : (placeholderTok j).length + (renderT rest).length ≤ fuel := by
        simpa using hfuel
      obtain ⟨f', rfl⟩ : ∃ f', fuel = f' + 1 := ⟨fuel - 1, by omega⟩
      rw [replaceAll_match (placeholderTok j) ins f' (renderT rest)
        (placeholderTok_ne_nil j)]
      rw [replace_sim j ins rest f' hokr (by omega)]
      simp [renderT, replacePh]
    · have htext : renderT (Tok.ph j :: rest) =
          '\x00' :: 'C' :: (natDecimal j ++ '\x00' :: renderT rest) := by
        simp [renderT, placeholderTok]
      rw [htext] at hfuel ⊢
      have hfl : (natDecimal j).length + (renderT rest).length + 3 ≤ fuel := by
        simp only [List.length_cons, List.length_append] at hfuel
        omega
      have hpre1 : ¬((placeholderTok i).isPrefixOf
          ('\x00' :: 'C' :: (natDecimal j ++ '\x00' :: renderT rest)) = true) := by
        intro hpre
        obtain ⟨t, ht⟩ := List.isPrefixOf_iff_prefix.mp hpre
        refine placeholderTok_neq (fun h => hij h.symm) t (renderT rest) ?_
        rw [ht]
        simp [placeholderTok]
      obtain ⟨f1, rfl⟩ : ∃ f1, fuel = f1 + 1 := ⟨fuel - 1, by omega⟩
      rw [replaceAll, if_neg hpre1]
      have hpre2 : ¬((placeholderTok i).isPrefixOf
          ('C' :: (natDecimal j ++ '\x00' :: renderT rest)) = true) := by
        have hform : placeholderTok i = '\x00' :: ('C' :: (natDecimal i ++ ['\x00'])) := rfl
        rw [hform, isPrefixOf_false_of_head (by decide : ('\x00' : Char) ≠ 'C')]
        simp
      obtain ⟨f2, rfl⟩ : ∃ f2, f1 = f2 + 1 := ⟨f1 - 1, by omega⟩
      rw [replaceAll, if_neg hpre2]
      obtain ⟨f3, rfl⟩ : ∃ f3, f2 = f3 + (natDecimal j).length :=
        ⟨f2 - (natDecimal j).length, by omega⟩
      rw [replace_skip (natDecimal j) (placeholderTok i) ins f3
        ('\x00' :: renderT rest)
        (fun c hc => isDigit_ne_nul (natDecimal_digits j c hc)) rfl]
      have hpre4 : ¬((placeholderTok i).isPrefixOf ('\x00' :: renderT rest) = true) := by
        intro hpre
        obtain ⟨t, ht⟩ := List.isPrefixOf_iff_prefix.mp hpre
        have ht2 : 'C' :: ((natDecimal i ++ ['\x00']) ++ t) = renderT rest := by
          have ht' : '\x00' :: ('C' :: ((natDecimal i ++ ['\x00']) ++ t)) =
              '\x00' :: renderT rest := ht
          exact (List.cons.injEq _ _ _ _ ▸ ht').2
        exact renderT_head_ne_C rest hokr 'C' (by rw [← ht2]; rfl) rfl
      obtain ⟨f4, rfl⟩ : ∃ f4, f3 = f4 + 1 := ⟨f3 - 1, by omega⟩
      rw [replaceAll, if_neg hpre4]
      rw [replace_sim i ins rest f4 hokr (by omega)]
      have hmap : replacePh i ins (Tok.ph j) = Tok.ph j := by
        simp [replacePh, hij]
      simp [renderT, placeholderTok, hmap]

theorem RTokOK_of_TokOK : ∀ t, TokOK t → RTokOK t
  | .chunk [], _ =>
    ⟨fun c hc => absurd hc (List.not_mem_nil c), fun c hc => by simp at hc⟩
  | .chunk (d :: w), h =>
    ⟨fun c hc => (h c hc).1, fun c hc => by
      have hdc : d = c := by simpa using hc
      subst hdc
      exact (h d (by simp)).2⟩
  | .ph _, _ => trivial

theorem restore_sim : ∀ (spans : List (List Char)) (st : Nat) (toks : List Tok),
    (∀ t ∈ toks, RTokOK t) → (∀ sp ∈ spans, ∀ c ∈ sp, c ≠ '\x00') →
    restoreSpans st spans (renderT toks) = renderT (restoreT st spans toks)
  | [], st, toks, _, _ => rfl
  | sp :: rest, st, toks, hok, hsp => by
    rw [restoreSpans, restoreT]
    unfold pyReplace
    rw [replace_sim st ("<code>".data ++ sp ++ "</code>".data) toks
      ((renderT toks).length + 1) hok (by omega)]
    refine restore_sim rest (st + 1) _ ?_ (fun s hs => hsp s (by simp [hs]))
    intro t ht
    obtain ⟨t0, ht0, rfl⟩ := List.mem_map.mp ht
    unfold replacePh
    split
    · refine ⟨?_, ?_⟩
      · intro c hc
        have hopen : ∀ x ∈ "<code>".data, x ≠ '\x00' := by decide
        have hclose : ∀ x ∈ "</code>".data, x ≠ '\x00' := by decide
        rcases List.mem_append.mp hc with hc | hc
        · rcases List.mem_append.mp hc with hc | hc
          · exact hopen c hc
          · exact hsp sp (by simp) c hc
        · exact hclose c hc
      · intro c hcc
        have h2 : some '<' = some c := hcc
        have h3 : '<' = c := by simpa using h2
        subst h3
        decide
    · exact hok t0 ht0

theorem chunk_mem_restoreT : ∀ (spans : List (List Char)) (st : Nat) (toks : List Tok)
    (w : List Char), Tok.chunk w ∈ toks → Tok.chunk w ∈ restoreT st spans toks
  | [], _, _, _, h => h
  | sp :: rest, st, toks, w, h => by
    rw [restoreT]
    exact chunk_mem_restoreT rest (st + 1) _ w
      (List.mem_map.mpr ⟨Tok.chunk w, h, by simp [replacePh]⟩)

theorem restoreT_chunk_of_ph : ∀ (spans : List (List Char)) (st k : Nat)
    (toks : List Tok), st ≤ k → k < st + spans.length → Tok.ph k ∈ toks →
    ∃ sp, spans[k - st]? = some sp ∧
      Tok.chunk ("<code>".data ++ sp ++ "</code>".data) ∈ restoreT st spans toks
  | [], st, k, toks, hle, hlt, _ => absurd hlt (by simpa using hle)
  | sp :: rest, st, k, toks, hle, hlt, hmem => by
    rw [restoreT]
    by_cases hk : k = st
    · subst hk
      refine ⟨sp, by simp, ?_⟩
      exact chunk_mem_restoreT rest (k + 1) _ _
        (List.mem_map.mpr ⟨Tok.ph k, hmem, by simp [replacePh]⟩)
    · obtain ⟨sp', hsp', hmemr⟩ := restoreT_chunk_of_ph rest (st + 1) k
        (toks.map (replacePh st ("<code>".data ++ sp ++ "</code>".data)))
        (by omega) (by simp only [List.length_cons] at hlt; omega)
        (List.mem_map.mpr ⟨Tok.ph k, hmem, by simp [replacePh, hk]⟩)
      refine ⟨sp', ?_, hmemr⟩
      have hidx : k - st = (k - (st + 1)) + 1 := by omega
      rw [hidx]
      simpa using hsp'

theorem ph_mem_phSeq : ∀ (toks : List Tok) (k : Nat), k ∈ phSeq toks →
    Tok.ph k ∈ toks
  | [], k, h => absurd h (List.not_mem_nil k)
  | .chunk w :: rest, k, h => List.mem_cons_of_mem _ (ph_mem_phSeq rest k h)
  | .ph i :: rest, k, h => by
    rcases List.mem_cons.mp h with rfl | h
    · exact List.mem_cons_self _ _
    · exact List.mem_cons_of_mem _ (ph_mem_phSeq rest k h)

theorem mem_range'_of : ∀ (n s k : Nat), s ≤ k → k < s + n → k ∈ List.range' s n
  | 0, s, k, h1, h2 => absurd h2 (by simpa using h1)
  | n + 1, s, k, h1, h2 => by
    by_cases hk : k = s
    · subst hk
      exact List.mem_cons_self k _
    · exact List.mem_cons_of_mem _ (mem_range'_of n (s + 1) k (by omega) (by omega))

theorem chunk_infix : ∀ (toks : List Tok) (w : List Char), Tok.chunk w ∈ toks →
    w <:+: renderT toks
  | [], w, h => absurd h (List.not_mem_nil _)
  | t :: rest, w, h => by
    rcases List.mem_cons.mp h with rfl | h
    · exact ⟨[], renderT rest, by simp [renderT]⟩
    · have hrec := chunk_infix rest w h
      cases t with
      | chunk w' =>
        exact hrec.trans (List.suffix_append w' (renderT rest)).isInfix
      | ph i =>
        exact hrec.trans (List.suffix_append (placeholderTok i) (renderT rest)).isInfix

/-- C8 (amended): for every input line that contains neither a NUL character
nor the letter `C`, the interior text of each extracted inline code span
appears in the output of `inline_format` wrapped in a code element exactly as
it appeared in the input: no image, link, bold, strikethrough or italic
substitution touches it.  (The original claim, which asserted this for every
line on the ground that placeholder collision with user text is structurally
impossible, is false: see the counterexample.) -/
theorem claim_C8 (line : String)
    (hclean : ∀ c ∈ line.data, c ≠ '\x00' ∧ c ≠ 'C') :
    ∀ sp ∈ (extractGo line.data 0 none).1,
      ("<code>".data ++ sp ++ "</code>".data) <:+: (inline_format line).data := by
  intro sp hsp
  obtain ⟨toks0, h1, h2, h3, h4⟩ := extractGo_spec line.data 0 none hclean
    (fun b hb => nomatch hb)
  obtain ⟨t1, e1, ok1, p1⟩ := subAll_sim imageMatcher matcherOK_image toks0 h2
  obtain ⟨t2, e2, ok2, p2⟩ := subAll_sim linkMatcher matcherOK_link t1 ok1
  obtain ⟨t3, e3, ok3, p3⟩ := subAll_sim
    (pairMatcher "***".data "<strong><em>".data "</em></strong>".data)
    (matcherOK_pair "***".data "<strong><em>".data "</em></strong>".data
      (by unfold patLit; decide) (by decide)
      (by unfold tplLit; decide) (by unfold tplLit; decide)) t2 ok2
  obtain ⟨t4, e4, ok4, p4⟩ := subAll_sim
    (pairMatcher "**".data "<strong>".data "</strong>".data)
    (matcherOK_pair "**".data "<strong>".data "</strong>".data
      (by unfold patLit; decide) (by decide)
      (by unfold tplLit; decide) (by unfold tplLit; decide)) t3 ok3
  obtain ⟨t5, e5, ok5, p5⟩ := subAll_sim
    (pairMatcher "__".data "<strong>".data "</strong>".data)
    (matcherOK_pair "__".data "<strong>".data "</strong>".data
      (by unfold patLit; decide) (by decide)
      (by unfold tplLit; decide) (by unfold tplLit; decide)) t4 ok4
  obtain ⟨t6, e6, ok6, p6⟩ := subAll_sim
    (pairMatcher "~~".data "<del>".data "</del>".data)
    (matcherOK_pair "~~".data "<del>".data "</del>".data
      (by unfold patLit; decide) (by decide)
      (by unfold tplLit; decide) (by unfold tplLit; decide)) t5 ok5
  obtain ⟨t7, e7, ok7, p7⟩ := subAll_sim italicMatcher matcherOK_italic t6 ok6
  have hif : (inline_format line).data =
      restoreSpans 0 (extractGo line.data 0 none).1
        (subAll italicMatcher
          (subAll (pairMatcher "~~".data "<del>".data "</del>".data)
            (subAll (pairMatcher "__".data "<strong>".data "</strong>".data)
              (subAll (pairMatcher "**".data "<strong>".data "</strong>".data)
                (subAll (pairMatcher "***".data "<strong><em>".data
                    "</em></strong>".data)
                  (subAll linkMatcher
                    (subAll imageMatcher (extractGo line.data 0 none).2))))))) := rfl
  rw [hif, h1, e1, e2, e3, e4, e5, e6, e7]
  rw [restore_sim (extractGo line.data 0 none).1 0 t7
    (fun t ht => RTokOK_of_TokOK t (ok7 t ht))
    (fun s hs c hc => (h4 s hs c hc).1)]
  obtain ⟨k, hk⟩ := List.mem_iff_getElem?.mp hsp
  have hklt : k < (extractGo line.data 0 none).1.length := by
    rcases List.getElem?_eq_some.mp hk with ⟨hlt, -⟩
    exact hlt
  have hperm : (phSeq t7).Perm (phSeq toks0) :=
    p7.trans (p6.trans (p5.trans (p4.trans (p3.trans (p2.trans p1)))))
  have hmemk : k ∈ phSeq t7 := by
    rw [hperm.mem_iff, h3]
    exact mem_range'_of _ 0 k (Nat.zero_le k) (by simpa using hklt)
  have hph : Tok.ph k ∈ t7 := ph_mem_phSeq t7 k hmemk
  obtain ⟨sp', hsp', hmem'⟩ := restoreT_chunk_of_ph (extractGo line.data 0 none).1
    0 k t7 (Nat.zero_le k) (by simpa using hklt) hph
  rw [Nat.sub_zero, hk] at hsp'
  obtain rfl := Option.some.inj hsp'
  exact chunk_infix _ _ hmem'

/-- C8 witness: on the clean line `` `*x*` y `` the extracted span `*x*` is
wrapped in a code element in the output, untouched by the italic stage. -/
theorem claim_C8_witness :
    (∀ c ∈ ("`*x*` y" : String).data, c ≠ '\x00' ∧ c ≠ 'C') ∧
    "*x*".data ∈ (extractGo ("`*x*` y" : String).data 0 none).1 ∧
    ("<code>".data ++ "*x*".data ++ "</code>".data) <:+:
      (inline_format "`*x*` y").data :=
  ⟨by decide, by decide,
    claim_C8 "`*x*` y" (by decide) "*x*".data (by decide)⟩

/-- C8 counterexample: placeholder collision with plain user text is possible.
On the line `` `w` `x` `y`C0`z` `` the letters `C0` between the third and
fourth spans, flanked by the placeholder NULs, forge an occurrence of the
placeholder of span 0; the restore loop rewrites it, so the interior `y` of
the third span is never wrapped in a code element and stray placeholder
fragments leak into the output. -/
theorem claim_C8_cex :
    "y".data ∈ (extractGo ("`w` `x` `y`C0`z`" : String).data 0 none).1 ∧
    ¬ (("<code>".data ++ "y".data ++ "</code>".data) <:+:
      (inline_format "`w` `x` `y`C0`z`").data) ∧
    inline_format "`w` `x` `y`C0`z`" =
      "<code>w</code> <code>x</code> \x00C2<code>w</code>C3\x00" :=
  ⟨by decide, by decide, by decide⟩
